import Mathlib

/-!
Verification development for the headless tree-state engine of
`src/src/VirtualizedTreeView.tsx` (react-virtual-treeview).

The data model and the operations below are shallow embeddings of the
TypeScript source: `TreeNode` mirrors the `TreeNode` class (its `children`
field is `null` = unloaded, or a loaded list), and each operation follows the
corresponding function of the source line by line.  JavaScript `Set` values
are modelled as `Finset String`; reference equality of untouched subtrees is
modelled as equality of the embedded values (the source returns the very same
object exactly where the embedding returns the unchanged value).  The async
fetch collaborators are modelled as explicit functions
`String → Except String (List TreeNode)`; the sequential model applies a
fetch result at the point the source awaits it.
-/

/-- The `TreeNode` class: `id`, `name`, `hasChildren`, the tri-state
`children` (`none` = unloaded / `some` = loaded), optional `type` and `icon`.
The constructor `new TreeNode(data)` recursively rebuilds child instances
from raw data; on already well-formed data that reconstruction is the
identity, so raw `TreeNodeData` and `TreeNode` are identified here. -/
inductive TreeNode : Type where
  | mk (id : String) (name : String) (hasChildren : Bool)
       (children : Option (List TreeNode))
       (type : Option String) (icon : Option String)

namespace TreeNode

/-- Field accessor for `id`. -/
def id : TreeNode → String
  | .mk i _ _ _ _ _ => i

/-- Field accessor for `name`. -/
def name : TreeNode → String
  | .mk _ nm _ _ _ _ => nm

/-- Field accessor for `hasChildren`. -/
def hasChildren : TreeNode → Bool
  | .mk _ _ hc _ _ _ => hc

/-- Field accessor for `children`. -/
def children : TreeNode → Option (List TreeNode)
  | .mk _ _ _ ch _ _ => ch

/-- Field accessor for `type`. -/
def type : TreeNode → Option String
  | .mk _ _ _ _ ty _ => ty

/-- Field accessor for `icon`. -/
def icon : TreeNode → Option String
  | .mk _ _ _ _ _ ic => ic

/-- `TreeNode.withChildren`: clone with `children` replaced and
`hasChildren` recomputed as `Array.isArray(newChildren) && newChildren.length > 0`. -/
def withChildren : TreeNode → Option (List TreeNode) → TreeNode
  | .mk i nm _ _ ty ic, newCh =>
    .mk i nm (match newCh with
              | some cs => !cs.isEmpty
              | none => false) newCh ty ic

end TreeNode

/-- The overridable fields accepted by `updateNodeData` (the source strips
`id` and `children` from the update object before calling `clone`). -/
structure NodeUpdates where
  name : Option String
  hasChildren : Option Bool
  type : Option (Option String)
  icon : Option (Option String)

/-- `TreeNode.clone(overrides)` in the configuration used by `updateNodeData`
(no `children` override): when the original children are loaded the clone
keeps the same child-node references (shallow array copy) and recomputes
`hasChildren` from non-emptiness; otherwise children stay unloaded and
`hasChildren` is the override if given, else the original. -/
def TreeNode.cloneWith : TreeNode → NodeUpdates → TreeNode
  | .mk i nm hc ch ty ic, u =>
    match ch with
    | some cs =>
      .mk i (u.name.getD nm) (!cs.isEmpty) (some cs) (u.type.getD ty) (u.icon.getD ic)
    | none =>
      .mk i (u.name.getD nm) (u.hasChildren.getD hc) none (u.type.getD ty) (u.icon.getD ic)

/-- Preorder list of all node instances of a forest, as visited by
`buildNodeMap`'s depth-first traversal. -/
def allNodesF : List TreeNode → List TreeNode
  | [] => []
  | TreeNode.mk i nm hc (some cs) ty ic :: rest =>
    TreeNode.mk i nm hc (some cs) ty ic :: (allNodesF cs ++ allNodesF rest)
  | TreeNode.mk i nm hc none ty ic :: rest =>
    TreeNode.mk i nm hc none ty ic :: allNodesF rest

/-- Preorder list of all node ids of a forest (ids reachable through loaded
children only, exactly the keys `buildNodeMap` inserts). -/
def allIdsF : List TreeNode → List String
  | [] => []
  | TreeNode.mk i _ _ (some cs) _ _ :: rest => i :: (allIdsF cs ++ allIdsF rest)
  | TreeNode.mk i _ _ none _ _ :: rest => i :: allIdsF rest

/-- Ids of the subtree rooted at a single node (the node itself plus
everything reachable through loaded children).  This is the set of ids
`findAllLoadedDescendantIds` collects when the start node is in the map. -/
def idsN (n : TreeNode) : List String := allIdsF [n]

/-- `buildNodeMap(tree).get(nodeId)`: the map is filled in preorder with
`map.set(node.id, node)`, so a later occurrence of a duplicated id wins. -/
def nodeMapGet (l : List TreeNode) (nodeId : String) : Option TreeNode :=
  (allNodesF l).reverse.find? (fun n => decide (n.id = nodeId))

/-- A node instance occurs in a forest (as a list element or anywhere below
one through loaded children). -/
def occursF (a : TreeNode) : List TreeNode → Prop
  | [] => False
  | TreeNode.mk i nm hc (some cs) ty ic :: rest =>
    a = TreeNode.mk i nm hc (some cs) ty ic ∨ occursF a cs ∨ occursF a rest
  | TreeNode.mk i nm hc none ty ic :: rest =>
    a = TreeNode.mk i nm hc none ty ic ∨ occursF a rest

/-- `findNodeAndPath` on a forest with a path accumulator: depth-first
search returning the found node and the ids of its ancestors from the root
of the forest down to (excluding) the node. -/
def fnapList (nodeId : String) : List TreeNode → List String → Option (TreeNode × List String)
  | [], _ => none
  | TreeNode.mk i nm hc (some cs) ty ic :: rest, cur =>
    if i = nodeId then some (TreeNode.mk i nm hc (some cs) ty ic, cur)
    else
      match fnapList nodeId cs (cur ++ [i]) with
      | some r => some r
      | none => fnapList nodeId rest cur
  | TreeNode.mk i nm hc none ty ic :: rest, cur =>
    if i = nodeId then some (TreeNode.mk i nm hc none ty ic, cur)
    else fnapList nodeId rest cur

/-- `findNodeAndPath(nodes, nodeId)` as called by the component: the pair
`{nodeData, path}`, each `null` when the node is absent. -/
def findNodeAndPath (nodes : Option (List TreeNode)) (nodeId : String) :
    Option TreeNode × Option (List String) :=
  match nodes with
  | none => (none, none)
  | some l =>
    match fnapList nodeId l [] with
    | some (n, p) => (some n, some p)
    | none => (none, none)

/-- The chain of ancestor node instances that a `findNodeAndPath` result
path denotes: each listed ancestor is an element of the enclosing forest
and the next level lives in its loaded children. -/
inductive Chain : List TreeNode → List TreeNode → TreeNode → Prop where
  | here {l : List TreeNode} {n : TreeNode} : n ∈ l → Chain l [] n
  | via {l : List TreeNode} {a : TreeNode} {cs ancs : List TreeNode} {n : TreeNode} :
      a ∈ l → a.children = some cs → Chain cs ancs n → Chain l (a :: ancs) n

/-- The `FlatTreeNode` row record produced by `flattenTree`. -/
structure FlatTreeNode where
  id : String
  name : String
  depth : Nat
  hasChildren : Bool
  originalHasChildren : Bool
  isLoaded : Bool
  isLoadingChildren : Bool
  isOpen : Bool
  type : Option String
  icon : Option String
  deriving DecidableEq

/-- The row `flattenTree` builds for one node at one depth. -/
def toFlatNode (openNodes loadingChildren : Finset String) (depth : Nat) :
    TreeNode → FlatTreeNode
  | .mk i nm hc ch ty ic =>
    { id := i
      name := nm
      depth := depth
      hasChildren := hc || (match ch with
                            | some cs => !cs.isEmpty
                            | none => false)
      originalHasChildren := hc
      isLoaded := ch.isSome
      isLoadingChildren := decide (i ∈ loadingChildren)
      isOpen := decide (i ∈ openNodes)
      type := ty
      icon := ic }

/-- `flattenTree` on a forest: pre-order traversal; a node's children are
emitted immediately after it iff the node is open, loaded, and the loaded
list is non-empty, and then at depth + 1. -/
def flattenList (openNodes loadingChildren : Finset String) :
    List TreeNode → Nat → List FlatTreeNode
  | [], _ => []
  | TreeNode.mk i nm hc (some cs) ty ic :: rest, depth =>
    toFlatNode openNodes loadingChildren depth (.mk i nm hc (some cs) ty ic) ::
      ((if i ∈ openNodes ∧ ¬cs.isEmpty then
          flattenList openNodes loadingChildren cs (depth + 1)
        else []) ++ flattenList openNodes loadingChildren rest depth)
  | TreeNode.mk i nm hc none ty ic :: rest, depth =>
    toFlatNode openNodes loadingChildren depth (.mk i nm hc none ty ic) ::
      flattenList openNodes loadingChildren rest depth

/-- `flattenTree(nodes, openNodes, depth, loadingChildren)` with the
`null`-tree guard of the source. -/
def flattenTree (nodes : Option (List TreeNode)) (openNodes : Finset String)
    (depth : Nat) (loadingChildren : Finset String) : List FlatTreeNode :=
  match nodes with
  | none => []
  | some l => flattenList openNodes loadingChildren l depth

/-- Body of `updateNodeInChildren` on one node list: maps every node,
replacing the matching node's children by the freshly fetched ones and
rebuilding each ancestor via `withChildren`; the boolean is the source's
`changed` flag (the recursion result is reference-unequal iff it is true). -/
def updList (nodeId : String) (newChildrenData : List TreeNode) :
    List TreeNode → List TreeNode × Bool
  | [] => ([], false)
  | TreeNode.mk i nm hc (some cs) ty ic :: rest =>
    let hd : TreeNode × Bool :=
      if i = nodeId then
        (TreeNode.withChildren (.mk i nm hc (some cs) ty ic) (some newChildrenData), true)
      else if cs.isEmpty then (TreeNode.mk i nm hc (some cs) ty ic, false)
      else
        let r := updList nodeId newChildrenData cs
        if r.2 then (TreeNode.withChildren (.mk i nm hc (some cs) ty ic) (some r.1), true)
        else (TreeNode.mk i nm hc (some cs) ty ic, false)
    let tl := updList nodeId newChildrenData rest
    (hd.1 :: tl.1, hd.2 || tl.2)
  | TreeNode.mk i nm hc none ty ic :: rest =>
    let hd : TreeNode × Bool :=
      if i = nodeId then
        (TreeNode.withChildren (.mk i nm hc none ty ic) (some newChildrenData), true)
      else (TreeNode.mk i nm hc none ty ic, false)
    let tl := updList nodeId newChildrenData rest
    (hd.1 :: tl.1, hd.2 || tl.2)

/-- `updateNodeInChildren(nodes, nodeId, newChildrenData)`: returns the new
array only if changes occurred, otherwise the original reference. -/
def updateNodeInChildren (nodes : Option (List TreeNode)) (nodeId : String)
    (newChildrenData : List TreeNode) : Option (List TreeNode) :=
  match nodes with
  | none => none
  | some l =>
    let r := updList nodeId newChildrenData l
    some (if r.2 then r.1 else l)

/-- Body of `updateNodeData`'s `processList`: like `updList` but the match
applies `clone` with the (id- and children-stripped) updates, and recursion
descends into any loaded children array (even an empty one). -/
def updDataList (nodeId : String) (u : NodeUpdates) :
    List TreeNode → List TreeNode × Bool
  | [] => ([], false)
  | TreeNode.mk i nm hc (some cs) ty ic :: rest =>
    let hd : TreeNode × Bool :=
      if i = nodeId then (TreeNode.cloneWith (.mk i nm hc (some cs) ty ic) u, true)
      else
        let r := updDataList nodeId u cs
        if r.2 then (TreeNode.withChildren (.mk i nm hc (some cs) ty ic) (some r.1), true)
        else (TreeNode.mk i nm hc (some cs) ty ic, false)
    let tl := updDataList nodeId u rest
    (hd.1 :: tl.1, hd.2 || tl.2)
  | TreeNode.mk i nm hc none ty ic :: rest =>
    let hd : TreeNode × Bool :=
      if i = nodeId then (TreeNode.cloneWith (.mk i nm hc none ty ic) u, true)
      else (TreeNode.mk i nm hc none ty ic, false)
    let tl := updDataList nodeId u rest
    (hd.1 :: tl.1, hd.2 || tl.2)

/-- `updateNodeData(nodes, nodeId, updatedData)`: the updated tree (original
reference if nothing changed) and the success flag. -/
def updateNodeData (nodes : Option (List TreeNode)) (nodeId : String)
    (u : NodeUpdates) : Option (List TreeNode) × Bool :=
  match nodes with
  | none => (none, false)
  | some l =>
    let r := updDataList nodeId u l
    (some (if r.2 then r.1 else l), r.2)

/-- Recursive part of `addNodeAtPath` (`updateRecursively`): descends the
ancestor-id path; at the last path segment the new node is appended to the
parent's loaded children (no-op when they are unloaded). -/
def addRec (newNode : TreeNode) : List TreeNode → List String → List TreeNode × Bool
  | l, [] => (l, false)
  | [], _ :: _ => ([], false)
  | TreeNode.mk i nm hc (some cs) ty ic :: rest, parentId :: remaining =>
    let hd : TreeNode × Bool :=
      if i = parentId then
        match remaining with
        | [] =>
          (TreeNode.withChildren (.mk i nm hc (some cs) ty ic) (some (cs ++ [newNode])), true)
        | _ :: _ =>
          let r := addRec newNode cs remaining
          if r.2 then (TreeNode.withChildren (.mk i nm hc (some cs) ty ic) (some r.1), true)
          else (TreeNode.mk i nm hc (some cs) ty ic, false)
      else (TreeNode.mk i nm hc (some cs) ty ic, false)
    let tl := addRec newNode rest (parentId :: remaining)
    (hd.1 :: tl.1, hd.2 || tl.2)
  | TreeNode.mk i nm hc none ty ic :: rest, parentId :: remaining =>
    let tl := addRec newNode rest (parentId :: remaining)
    (TreeNode.mk i nm hc none ty ic :: tl.1, tl.2)

/-- `addNodeAtPath(nodes, path, newNodeInput)`: empty path appends at the
root level; otherwise the path is walked and the node appended to the
located parent's loaded children; the unchanged reference is returned when
nothing was added. -/
def addNodeAtPath (nodes : Option (List TreeNode)) (path : List String)
    (newNode : TreeNode) : Option (List TreeNode) :=
  match nodes with
  | none => if path.isEmpty then some [newNode] else none
  | some l =>
    match path with
    | [] => some (l ++ [newNode])
    | _ :: _ =>
      let r := addRec newNode l path
      some (if r.2 then r.1 else l)

/-- Top-level scan of `findAndRemoveNode`'s `processNodeList` (`findIndex`
plus `splice`): removes the first direct element with the given id,
returning the remaining siblings and the removed node. -/
def remTop (nodeIdToRemove : String) : List TreeNode → Option (List TreeNode × TreeNode)
  | [] => none
  | n :: rest =>
    if n.id = nodeIdToRemove then some (rest, n)
    else
      match remTop nodeIdToRemove rest with
      | some (r, m) => some (n :: r, m)
      | none => none

/-- Recursive map phase of `processNodeList`: descends into loaded children
(left to right, stopping after the node has been removed), rebuilding each
ancestor with `withChildren`; a child list that becomes empty is passed on
as `none` (the `updatedList.length === 0 ? null : updatedList` line). -/
def remMap (nodeIdToRemove : String) : List TreeNode → List TreeNode × Option TreeNode
  | [] => ([], none)
  | TreeNode.mk i nm hc (some cs) ty ic :: rest =>
    let inner : Option (List TreeNode) × Option TreeNode :=
      match remTop nodeIdToRemove cs with
      | some (l1, m) => (if l1.isEmpty then none else some l1, some m)
      | none =>
        let r := remMap nodeIdToRemove cs
        match r.2 with
        | some m => (some r.1, some m)
        | none => (some cs, none)
    match inner.2 with
    | some m => (TreeNode.withChildren (.mk i nm hc (some cs) ty ic) inner.1 :: rest, some m)
    | none =>
      let t := remMap nodeIdToRemove rest
      (TreeNode.mk i nm hc (some cs) ty ic :: t.1, t.2)
  | TreeNode.mk i nm hc none ty ic :: rest =>
    let t := remMap nodeIdToRemove rest
    (TreeNode.mk i nm hc none ty ic :: t.1, t.2)

/-- `processNodeList` on one node list: first the direct `findIndex` scan,
then the recursive map; not-found returns the original list reference. -/
def remList (nodeIdToRemove : String) (l : List TreeNode) :
    Option (List TreeNode) × Option TreeNode :=
  match remTop nodeIdToRemove l with
  | some (l1, m) => (if l1.isEmpty then none else some l1, some m)
  | none =>
    let r := remMap nodeIdToRemove l
    match r.2 with
    | some m => (some r.1, some m)
    | none => (some l, none)

/-- `findAndRemoveNode(nodes, nodeIdToRemove)`: the updated tree (possibly
`null` when the root list empties) and the removed node. -/
def findAndRemoveNode (nodes : Option (List TreeNode)) (nodeIdToRemove : String) :
    Option (List TreeNode) × Option TreeNode :=
  match nodes with
  | none => (none, none)
  | some l => remList nodeIdToRemove l

/-- Render-time indeterminate computation for one row (checkbox feature
enabled): the row's effective `hasChildren`, the node not itself checked,
and at least one loaded child in the checked set
(`checkedChildrenCount > 0`, with no upper-bound comparison). -/
def isIndeterminate (checkedNodes : Finset String) : TreeNode → Bool
  | .mk i _nm hc ch _ty _ic =>
    (hc || (match ch with
            | some cs => !cs.isEmpty
            | none => false)) &&
    !(decide (i ∈ checkedNodes)) &&
    (match ch with
     | some cs =>
       !cs.isEmpty &&
       decide (0 < (cs.filter (fun c => decide (c.id ∈ checkedNodes))).length)
     | none => false)

/-- Fold adding every listed id to a checked set. -/
def foldInsert (s : Finset String) (ids : List String) : Finset String :=
  ids.foldl (fun t x => insert x t) s

/-- Fold removing every listed id from a checked set. -/
def foldErase (s : Finset String) (ids : List String) : Finset String :=
  ids.foldl (fun t x => t.erase x) s

/-- Upward pass of `handleCheckboxChange`: for each ancestor id (deepest
first) whose node has loaded non-empty children, membership becomes checked
iff every direct loaded child is in the evolving set. -/
def applyAncestors (l : List TreeNode) : List String → Finset String → Finset String
  | [], s => s
  | aid :: rest, s =>
    let s1 :=
      match nodeMapGet l aid with
      | some a =>
        match a.children with
        | some cs =>
          if cs.isEmpty then s
          else if cs.all (fun c => decide (c.id ∈ s)) then insert aid s
          else s.erase aid
        | none => s
      | none => s
    applyAncestors l rest s1

/-- `handleCheckboxChange(clickedNodeId)` as a function of the tree and the
checked set: toggle target = not currently checked; all loaded descendants
(including the node) are added or removed; then the ancestor path is
recomputed bottom-up; the node map is modelled by `nodeMapGet`. -/
def handleCheckboxChange (tree : Option (List TreeNode))
    (checkedNodes : Finset String) (clickedNodeId : String) : Finset String :=
  match tree with
  | none => checkedNodes
  | some l =>
    if (allNodesF l).isEmpty then checkedNodes
    else
      let descendantIds :=
        match nodeMapGet l clickedNodeId with
        | some n => idsN n
        | none => [clickedNodeId]
      let s1 :=
        if clickedNodeId ∈ checkedNodes then foldErase checkedNodes descendantIds
        else foldInsert checkedNodes descendantIds
      match fnapList clickedNodeId l [] with
      | some (_, p) => applyAncestors l p.reverse s1
      | none => s1

/-- The component state consulted and produced by `handleCompleteMove`. -/
structure MoveState where
  treeData : Option (List TreeNode)
  nodeToMove : Option TreeNode
  selectedNodeId : Option String

/-- Result of one `handleCompleteMove` call: the updated state and the
error surfaced by that call (if any). -/
structure MoveResult where
  state : MoveState
  errorMsg : Option String

/-- `handleCompleteMove(targetParentId)`: validates self-move, descendant
move (via the target's ancestor path) and unloaded target children, then
removes and re-adds the node.  Self-move and descendant-move clear
`nodeToMove`; the unloaded-target branch keeps it. -/
def handleCompleteMove (s : MoveState) (targetParentId : Option String) : MoveResult :=
  match s.nodeToMove with
  | none => ⟨s, none⟩
  | some m =>
    if targetParentId = some m.id then
      ⟨⟨s.treeData, none, s.selectedNodeId⟩, some "Cannot move a node into itself."⟩
    else
      let tp :=
        match targetParentId with
        | some t => findNodeAndPath s.treeData t
        | none => ((none : Option TreeNode), some ([] : List String))
      let inDescendant : Bool :=
        match tp.2 with
        | some p => decide (m.id ∈ p)
        | none => false
      if inDescendant then
        ⟨⟨s.treeData, none, s.selectedNodeId⟩, some "Cannot move a node into its own descendant."⟩
      else
        let unloadedTarget : Bool :=
          match tp.1 with
          | some d => d.children.isNone
          | none => false
        if unloadedTarget then
          ⟨s, some "Target parent must be expanded first."⟩
        else
          let rr := findAndRemoveNode s.treeData m.id
          match rr.2 with
          | none =>
            ⟨⟨s.treeData, none, s.selectedNodeId⟩,
             some "Failed to find and remove the original node during move."⟩
          | some removed =>
            ⟨⟨addNodeAtPath rr.1 (tp.2.getD []) removed, none, some m.id⟩, none⟩

/-- State produced by the imperative `removeNode` command, together with
how often each external notification fired during the call. -/
structure RemoveResult where
  treeData : Option (List TreeNode)
  selectedNodeId : Option String
  deselectCalls : Nat
  checkedNodes : Finset String
  checkedCalls : Nat
  returned : Bool

/-- `removeNode(nodeId)` from the imperative handle: removes the node, and
only when the removed id equals the current selection clears it and fires
`onNodeSelect(null, null)` once; a checked id is simply deleted from the
checked set with no cascade. -/
def removeNode (treeData : Option (List TreeNode)) (selectedNodeId : Option String)
    (checkedNodes : Finset String) (nodeId : String) : RemoveResult :=
  let rr := findAndRemoveNode treeData nodeId
  match rr.2 with
  | some _ =>
    let sel : Option String × Nat :=
      if selectedNodeId = some nodeId then (none, 1) else (selectedNodeId, 0)
    let chk : Finset String × Nat :=
      if nodeId ∈ checkedNodes then (checkedNodes.erase nodeId, 1) else (checkedNodes, 0)
    ⟨rr.1, sel.1, sel.2, chk.1, chk.2, true⟩
  | none => ⟨treeData, selectedNodeId, 0, checkedNodes, 0, false⟩

/-- The tree / open-set / loading-set slice of the component state used by
the expansion orchestrator. -/
structure TVState where
  treeData : Option (List TreeNode)
  openNodes : Finset String
  loadingChildren : Finset String

/-- Result of one orchestrator call: the new state, how many failures were
surfaced through `handleError`, and the ids whose loading flag the call's
`finally` blocks cleared (in order). -/
structure OrchResult where
  state : TVState
  errorsSurfaced : Nat
  loadingReleases : List String

/-- `toggleNode(flatNode)`: closing removes the id from the open set;
opening adds it and, when a fetch is needed, marks the id loading, awaits
the fetch, applies success via `updateNodeInChildren` or rolls the open-set
entry back on failure, and finally clears the loading flag. -/
def toggleNode (st : TVState) (id : String)
    (isOpen originalHasChildren isLoaded : Bool)
    (fetch : String → Except String (List TreeNode)) : OrchResult :=
  if isOpen then
    ⟨⟨st.treeData, st.openNodes.erase id, st.loadingChildren⟩, 0, []⟩
  else
    let opened := insert id st.openNodes
    if originalHasChildren && !isLoaded && !(decide (id ∈ st.loadingChildren)) then
      let loading1 := insert id st.loadingChildren
      match fetch id with
      | .ok childrenData =>
        ⟨⟨updateNodeInChildren st.treeData id childrenData, opened, loading1.erase id⟩, 0, [id]⟩
      | .error _ =>
        ⟨⟨st.treeData, opened.erase id, loading1.erase id⟩, 1, [id]⟩
    else ⟨⟨st.treeData, opened, st.loadingChildren⟩, 0, []⟩

/-- Phase 1 of `expandNode` on a forest: which ids get opened and which get
fetched.  A node needing a fetch (declared children, unloaded, not already
loading) stops the descent; with `recursive` the walk continues through
loaded children.  The source performs this walk breadth-first with a
visited set; with unique ids that collects the same ids as this structural
descent (the results feed sets, so order is immaterial). -/
def phase1F (loadingChildren : Finset String) (recursive : Bool) :
    List TreeNode → List String × List String
  | [] => ([], [])
  | TreeNode.mk i _ _hc (some cs) _ _ :: rest =>
    let hd : List String × List String :=
      if recursive then
        let r := phase1F loadingChildren recursive cs
        (i :: r.1, r.2)
      else ([i], [])
    let tl := phase1F loadingChildren recursive rest
    (hd.1 ++ tl.1, hd.2 ++ tl.2)
  | TreeNode.mk i _ hc none _ _ :: rest =>
    let hd : List String × List String :=
      if hc && !(decide (i ∈ loadingChildren)) then ([i], [i])
      else ([i], [])
    let tl := phase1F loadingChildren recursive rest
    (hd.1 ++ tl.1, hd.2 ++ tl.2)

/-- `expandNode(nodeId, recursive)`: phase 1 collects `nodesToOpen` and
`nodesToFetch` from the node map, phase 2 adds the opened ids, phase 3
fetches each id, applies every successful result, counts one surfaced error
per failure, and finally clears every fetched id's loading flag.  Note that
no branch removes an id from the open set. -/
def expandNode (st : TVState) (nodeId : String) (recursive : Bool)
    (fetch : String → Except String (List TreeNode)) : OrchResult :=
  let l := match st.treeData with
           | some l => l
           | none => []
  let p1 :=
    match nodeMapGet l nodeId with
    | some n => phase1F st.loadingChildren recursive [n]
    | none => (([] : List String), ([] : List String))
  let openNodes1 := foldInsert st.openNodes p1.1
  let results := p1.2.map (fun f => (f, fetch f))
  let treeData1 := results.foldl (fun t r =>
      match r.2 with
      | .ok d => updateNodeInChildren t r.1 d
      | .error _ => t) st.treeData
  let errs := (results.filter (fun r =>
      match r.2 with
      | .error _ => true
      | .ok _ => false)).length
  let loadingF := foldErase (foldInsert st.loadingChildren p1.2) p1.2
  ⟨⟨treeData1, openNodes1, loadingF⟩, errs, p1.2⟩

/-! ### Basic facts about the embedded data model -/

@[simp] theorem TreeNode.id_mk (i nm : String) (hc : Bool)
    (ch : Option (List TreeNode)) (ty ic : Option String) :
    (TreeNode.mk i nm hc ch ty ic).id = i := rfl

@[simp] theorem TreeNode.name_mk (i nm : String) (hc : Bool)
    (ch : Option (List TreeNode)) (ty ic : Option String) :
    (TreeNode.mk i nm hc ch ty ic).name = nm := rfl

@[simp] theorem TreeNode.hasChildren_mk (i nm : String) (hc : Bool)
    (ch : Option (List TreeNode)) (ty ic : Option String) :
    (TreeNode.mk i nm hc ch ty ic).hasChildren = hc := rfl

@[simp] theorem TreeNode.children_mk (i nm : String) (hc : Bool)
    (ch : Option (List TreeNode)) (ty ic : Option String) :
    (TreeNode.mk i nm hc ch ty ic).children = ch := rfl

@[simp] theorem TreeNode.type_mk (i nm : String) (hc : Bool)
    (ch : Option (List TreeNode)) (ty ic : Option String) :
    (TreeNode.mk i nm hc ch ty ic).type = ty := rfl

@[simp] theorem TreeNode.icon_mk (i nm : String) (hc : Bool)
    (ch : Option (List TreeNode)) (ty ic : Option String) :
    (TreeNode.mk i nm hc ch ty ic).icon = ic := rfl

theorem allIdsF_nil : allIdsF [] = [] := by simp [allIdsF]

theorem allIdsF_cons_some (i nm : String) (hc : Bool) (cs : List TreeNode)
    (ty ic : Option String) (rest : List TreeNode) :
    allIdsF (TreeNode.mk i nm hc (some cs) ty ic :: rest) =
      i :: (allIdsF cs ++ allIdsF rest) := by
  simp [allIdsF]

theorem allIdsF_cons_none (i nm : String) (hc : Bool)
    (ty ic : Option String) (rest : List TreeNode) :
    allIdsF (TreeNode.mk i nm hc none ty ic :: rest) = i :: allIdsF rest := by
  simp [allIdsF]

theorem idsN_some (i nm : String) (hc : Bool) (cs : List TreeNode)
    (ty ic : Option String) :
    idsN (TreeNode.mk i nm hc (some cs) ty ic) = i :: allIdsF cs := by
  simp [idsN, allIdsF]

theorem idsN_none (i nm : String) (hc : Bool) (ty ic : Option String) :
    idsN (TreeNode.mk i nm hc none ty ic) = [i] := by
  simp [idsN, allIdsF]

theorem allIdsF_cons (n : TreeNode) (rest : List TreeNode) :
    allIdsF (n :: rest) = idsN n ++ allIdsF rest := by
  cases n with
  | mk i nm hc ch ty ic =>
    cases ch with
    | some cs => simp [allIdsF_cons_some, idsN_some]
    | none => simp [allIdsF_cons_none, idsN_none]

theorem id_mem_idsN (n : TreeNode) : n.id ∈ idsN n := by
  cases n with
  | mk i nm hc ch ty ic =>
    cases ch with
    | some cs => simp [idsN_some]
    | none => simp [idsN_none]

theorem allIdsF_append (l1 l2 : List TreeNode) :
    allIdsF (l1 ++ l2) = allIdsF l1 ++ allIdsF l2 := by
  induction l1 with
  | nil => simp [allIdsF_nil]
  | cons n rest ih => simp [allIdsF_cons, ih]

theorem idsN_sub_of_mem {n : TreeNode} {l : List TreeNode} (h : n ∈ l) :
    ∀ x ∈ idsN n, x ∈ allIdsF l := by
  induction l with
  | nil => cases h
  | cons m rest ih =>
    intro x hx
    rw [allIdsF_cons]
    rcases List.mem_cons.mp h with he | ht
    · subst he; exact List.mem_append_left _ hx
    · exact List.mem_append_right _ (ih ht x hx)

theorem occursF_nil (a : TreeNode) : ¬ occursF a [] := by
  simp [occursF]

theorem occursF_cons_some {a : TreeNode} (i nm : String) (hc : Bool)
    (cs : List TreeNode) (ty ic : Option String) (rest : List TreeNode) :
    occursF a (TreeNode.mk i nm hc (some cs) ty ic :: rest) ↔
      a = TreeNode.mk i nm hc (some cs) ty ic ∨ occursF a cs ∨ occursF a rest := by
  simp [occursF]

theorem occursF_cons_none {a : TreeNode} (i nm : String) (hc : Bool)
    (ty ic : Option String) (rest : List TreeNode) :
    occursF a (TreeNode.mk i nm hc none ty ic :: rest) ↔
      a = TreeNode.mk i nm hc none ty ic ∨ occursF a rest := by
  simp [occursF]

theorem occursF_of_mem {a : TreeNode} {l : List TreeNode} (h : a ∈ l) : occursF a l := by
  induction l with
  | nil => cases h
  | cons m rest ih =>
    rcases List.mem_cons.mp h with he | ht
    · cases m with
      | mk i nm hc ch ty ic =>
        cases ch with
        | some cs => exact (occursF_cons_some ..).mpr (Or.inl he)
        | none => exact (occursF_cons_none ..).mpr (Or.inl he)
    · cases m with
      | mk i nm hc ch ty ic =>
        cases ch with
        | some cs => exact (occursF_cons_some ..).mpr (Or.inr (Or.inr (ih ht)))
        | none => exact (occursF_cons_none ..).mpr (Or.inr (ih ht))

theorem occursF_below {a : TreeNode} {l cs : List TreeNode} {x : TreeNode}
    (ha : a ∈ l) (hch : a.children = some cs) (hx : occursF x cs) : occursF x l := by
  induction l with
  | nil => cases ha
  | cons m rest ih =>
    rcases List.mem_cons.mp ha with he | ht
    · subst he
      cases a with
      | mk i nm hc ch ty ic =>
        simp only [TreeNode.children_mk] at hch
        subst hch
        exact (occursF_cons_some ..).mpr (Or.inr (Or.inl hx))
    · cases m with
      | mk i nm hc ch ty ic =>
        cases ch with
        | some cs2 => exact (occursF_cons_some ..).mpr (Or.inr (Or.inr (ih ht)))
        | none => exact (occursF_cons_none ..).mpr (Or.inr (ih ht))

/-- Ids of an occurring node's subtree are among the forest's ids. -/
theorem occursF_ids_sub {a : TreeNode} {l : List TreeNode} (h : occursF a l) :
    ∀ x ∈ idsN a, x ∈ allIdsF l := by
  induction l using allIdsF.induct with
  | case1 => exact absurd h (occursF_nil a)
  | case2 i nm hc cs ty ic rest ihcs ihrest =>
    rcases (occursF_cons_some ..).mp h with he | hcs | hrest
    · subst he; exact idsN_sub_of_mem (List.mem_cons_self _ _)
    · intro x hx
      rw [allIdsF_cons_some]
      exact List.mem_cons_of_mem _ (List.mem_append_left _ (ihcs hcs x hx))
    · intro x hx
      rw [allIdsF_cons_some]
      exact List.mem_cons_of_mem _ (List.mem_append_right _ (ihrest hrest x hx))
  | case3 i nm hc ty ic rest ihrest =>
    rcases (occursF_cons_none ..).mp h with he | hrest
    · subst he; exact idsN_sub_of_mem (List.mem_cons_self _ _)
    · intro x hx
      rw [allIdsF_cons_none]
      exact List.mem_cons_of_mem _ (ihrest hrest x hx)

theorem occursF_id_mem {a : TreeNode} {l : List TreeNode} (h : occursF a l) :
    a.id ∈ allIdsF l :=
  occursF_ids_sub h a.id (id_mem_idsN a)

/-! ### Node map and search lemmas -/

theorem allNodesF_nil : allNodesF [] = [] := by simp [allNodesF]

theorem mem_allNodesF_iff_occursF {a : TreeNode} :
    ∀ {l : List TreeNode}, a ∈ allNodesF l ↔ occursF a l := by
  intro l
  induction l using allNodesF.induct with
  | case1 => simp [allNodesF, occursF]
  | case2 i nm hc cs ty ic rest ihcs ihrest =>
    rw [allNodesF, occursF_cons_some]
    simp [List.mem_cons, List.mem_append, ihcs, ihrest]
  | case3 i nm hc ty ic rest ihrest =>
    rw [allNodesF, occursF_cons_none]
    simp [List.mem_cons, ihrest]

theorem allIdsF_eq_map_id : ∀ l : List TreeNode, allIdsF l = (allNodesF l).map TreeNode.id := by
  intro l
  induction l using allNodesF.induct with
  | case1 => simp [allNodesF, allIdsF]
  | case2 i nm hc cs ty ic rest ihcs ihrest =>
    rw [allNodesF, allIdsF_cons_some, ihcs, ihrest]
    simp
  | case3 i nm hc ty ic rest ihrest =>
    rw [allNodesF, allIdsF_cons_none, ihrest]
    simp

/-- A list whose keys are distinct is searched to the unique element with a
given key. -/
theorem find_unique_by_key {α β : Type} [DecidableEq β] (f : α → β) :
    ∀ (ms : List α) (a : α), a ∈ ms → (ms.map f).Nodup →
      ms.find? (fun b => decide (f b = f a)) = some a := by
  intro ms
  induction ms with
  | nil => intro a ha; cases ha
  | cons h t ih =>
    intro a ha hnd
    rw [List.map_cons, List.nodup_cons] at hnd
    by_cases hfa : f h = f a
    · have hha : h = a := by
        rcases List.mem_cons.mp ha with he | ht
        · exact he.symm
        · exact absurd (hfa ▸ List.mem_map_of_mem f ht) hnd.1
      rw [List.find?_cons_of_pos _ (by simp [hfa])]
      rw [hha]
    · have hat : a ∈ t := by
        rcases List.mem_cons.mp ha with he | ht
        · exact absurd (he ▸ rfl) hfa
        · exact ht
      rw [List.find?_cons_of_neg _ (by simp [hfa])]
      exact ih a hat hnd.2

theorem nodeMapGet_id {l : List TreeNode} {x : String} {n : TreeNode}
    (h : nodeMapGet l x = some n) : n.id = x := by
  have hp := List.find?_some h
  simpa using hp

theorem nodeMapGet_occurs {l : List TreeNode} {x : String} {n : TreeNode}
    (h : nodeMapGet l x = some n) : occursF n l := by
  have hm := List.mem_of_find?_eq_some h
  exact mem_allNodesF_iff_occursF.mp (List.mem_reverse.mp hm)

theorem nodeMapGet_of_occurs {l : List TreeNode} {a : TreeNode}
    (hnd : (allIdsF l).Nodup) (h : occursF a l) : nodeMapGet l a.id = some a := by
  have hmem : a ∈ (allNodesF l).reverse :=
    List.mem_reverse.mpr (mem_allNodesF_iff_occursF.mpr h)
  have hnd2 : ((allNodesF l).reverse.map TreeNode.id).Nodup := by
    rw [List.map_reverse, List.nodup_reverse, ← allIdsF_eq_map_id]
    exact hnd
  exact find_unique_by_key TreeNode.id _ a hmem hnd2

/-! ### Chain lemmas -/

theorem chain_of_chain_tail {x : TreeNode} {rest ancs : List TreeNode} {n : TreeNode}
    (h : Chain rest ancs n) : Chain (x :: rest) ancs n := by
  cases h with
  | here hm => exact Chain.here (List.mem_cons_of_mem _ hm)
  | via ha hch hc => exact Chain.via (List.mem_cons_of_mem _ ha) hch hc

theorem chain_occursF {l ancs : List TreeNode} {n : TreeNode} (h : Chain l ancs n) :
    occursF n l := by
  induction h with
  | here hm => exact occursF_of_mem hm
  | via ha hch _ ih => exact occursF_below ha hch ih

theorem chain_anc_occursF {l ancs : List TreeNode} {n : TreeNode} (h : Chain l ancs n) :
    ∀ a ∈ ancs, occursF a l := by
  induction h with
  | here _ => intro a ha; cases ha
  | via hmem hch _ ih =>
    intro a ha
    rcases List.mem_cons.mp ha with he | ht
    · exact he ▸ occursF_of_mem hmem
    · exact occursF_below hmem hch (ih a ht)

theorem chain_below {l ancs : List TreeNode} {n a : TreeNode}
    (h : Chain l ancs n) (ha : a ∈ ancs) :
    ∃ cs, a.children = some cs ∧ occursF n cs := by
  induction h with
  | here _ => cases ha
  | via hmem hch hc ih =>
    rcases List.mem_cons.mp ha with he | ht
    · subst he; exact ⟨_, hch, chain_occursF hc⟩
    · exact ih ht

theorem fnap_chain (nodeId : String) :
    ∀ (l : List TreeNode) (cur : List String), ∀ n p,
      fnapList nodeId l cur = some (n, p) →
      n.id = nodeId ∧ ∃ ancs, Chain l ancs n ∧ p = cur ++ ancs.map TreeNode.id := by
  intro l cur
  induction l, cur using fnapList.induct nodeId with
  | case1 cur =>
    intro n p h
    simp [fnapList] at h
  | case2 nm hc cs ty ic rest cur =>
    intro n p h
    simp [fnapList] at h
    refine ⟨by simp [← h.1], [], Chain.here ?_, by simp [h.2]⟩
    rw [← h.1]
    exact List.mem_cons_self _ _
  | case3 i nm hc cs ty ic rest cur hne r hr ih =>
    intro n p h
    rw [fnapList, if_neg hne, hr] at h
    simp at h
    obtain ⟨hid, ancs, hch, hp⟩ := ih n p (by rw [hr, h])
    refine ⟨hid, TreeNode.mk i nm hc (some cs) ty ic :: ancs, ?_, ?_⟩
    · exact Chain.via (List.mem_cons_self _ _) rfl hch
    · simp [hp, List.append_assoc]
  | case4 i nm hc cs ty ic rest cur hne hnone ihcs ihrest =>
    intro n p h
    rw [fnapList, if_neg hne, hnone] at h
    obtain ⟨hid, ancs, hch, hp⟩ := ihrest n p h
    exact ⟨hid, ancs, chain_of_chain_tail hch, hp⟩
  | case5 nm hc ty ic rest cur =>
    intro n p h
    simp [fnapList] at h
    refine ⟨by simp [← h.1], [], Chain.here ?_, by simp [h.2]⟩
    rw [← h.1]
    exact List.mem_cons_self _ _
  | case6 i nm hc ty ic rest cur hne ih =>
    intro n p h
    rw [fnapList, if_neg hne] at h
    obtain ⟨hid, ancs, hch, hp⟩ := ih n p h
    exact ⟨hid, ancs, chain_of_chain_tail hch, hp⟩

theorem fnap_found_of_mem (nodeId : String) :
    ∀ (l : List TreeNode) (cur : List String), nodeId ∈ allIdsF l →
      ∃ r, fnapList nodeId l cur = some r := by
  intro l cur
  induction l, cur using fnapList.induct nodeId with
  | case1 cur =>
    intro hmem
    rw [allIdsF_nil] at hmem
    cases hmem
  | case2 nm hc cs ty ic rest cur =>
    intro _
    exact ⟨_, by rw [fnapList, if_pos rfl]⟩
  | case3 i nm hc cs ty ic rest cur hne r hr ih =>
    intro _
    exact ⟨r, by rw [fnapList, if_neg hne, hr]⟩
  | case4 i nm hc cs ty ic rest cur hne hnone ihcs ihrest =>
    intro hmem
    rw [allIdsF_cons_some] at hmem
    rcases List.mem_cons.mp hmem with he | hm
    · exact absurd he.symm hne
    rcases List.mem_append.mp hm with hcs | hrest
    · obtain ⟨r, hr⟩ := ihcs hcs
      rw [hr] at hnone
      cases hnone
    · obtain ⟨r, hr⟩ := ihrest hrest
      exact ⟨r, by rw [fnapList, if_neg hne, hnone]; exact hr⟩
  | case5 nm hc ty ic rest cur =>
    intro _
    exact ⟨_, by rw [fnapList, if_pos rfl]⟩
  | case6 i nm hc ty ic rest cur hne ih =>
    intro hmem
    rw [allIdsF_cons_none] at hmem
    rcases List.mem_cons.mp hmem with he | hrest
    · exact absurd he.symm hne
    · obtain ⟨r, hr⟩ := ih hrest
      exact ⟨r, by rw [fnapList, if_neg hne]; exact hr⟩

/-! ### Uniqueness under the unique-id invariant -/

theorem sub_idsN_of_children {m : TreeNode} {csm : List TreeNode}
    (hch : m.children = some csm) : ∀ x ∈ allIdsF csm, x ∈ idsN m := by
  cases m with
  | mk i nm hc ch ty ic =>
    simp only [TreeNode.children_mk] at hch
    subst hch
    intro x hx
    rw [idsN_some]
    exact List.mem_cons_of_mem _ hx

theorem nodup_idsN_of_occurs {l : List TreeNode} (hnd : (allIdsF l).Nodup)
    {a : TreeNode} (h : occursF a l) : (idsN a).Nodup := by
  induction l using allIdsF.induct with
  | case1 => exact absurd h (occursF_nil a)
  | case2 i nm hc cs ty ic rest ihcs ihrest =>
    rw [allIdsF_cons_some, List.nodup_cons, List.nodup_append] at hnd
    obtain ⟨hnotin, hndcs, hndrest, _⟩ := hnd
    rcases (occursF_cons_some ..).mp h with he | hcs | hrest
    · subst he
      rw [idsN_some, List.nodup_cons]
      exact ⟨fun hmem => hnotin (List.mem_append_left _ hmem), hndcs⟩
    · exact ihcs hndcs hcs
    · exact ihrest hndrest hrest
  | case3 i nm hc ty ic rest ihrest =>
    rw [allIdsF_cons_none, List.nodup_cons] at hnd
    rcases (occursF_cons_none ..).mp h with he | hrest
    · subst he
      rw [idsN_none]
      exact List.nodup_singleton i
    · exact ihrest hnd.2 hrest

theorem nodup_children_of_occurs {l : List TreeNode} (hnd : (allIdsF l).Nodup)
    {a : TreeNode} (h : occursF a l) {cs : List TreeNode}
    (hch : a.children = some cs) : (allIdsF cs).Nodup ∧ a.id ∉ allIdsF cs := by
  have hn := nodup_idsN_of_occurs hnd h
  cases a with
  | mk i nm hc ch ty ic =>
    simp only [TreeNode.children_mk] at hch
    subst hch
    rw [idsN_some, List.nodup_cons] at hn
    exact ⟨hn.2, by simpa using hn.1⟩

theorem occurs_unique {l : List TreeNode} (hnd : (allIdsF l).Nodup) :
    ∀ {a b : TreeNode}, occursF a l → occursF b l → a.id = b.id → a = b := by
  induction l using allIdsF.induct with
  | case1 =>
    intro a b ha
    exact absurd ha (occursF_nil a)
  | case2 i nm hc cs ty ic rest ihcs ihrest =>
    intro a b ha hb hid
    rw [allIdsF_cons_some, List.nodup_cons, List.nodup_append] at hnd
    obtain ⟨hnotin, hndcs, hndrest, hdisj⟩ := hnd
    rcases (occursF_cons_some ..).mp ha with hae | hacs | harest <;>
      rcases (occursF_cons_some ..).mp hb with hbe | hbcs | hbrest
    · rw [hae, hbe]
    · exact absurd (hid ▸ occursF_id_mem hbcs)
        (by rw [hae]; simpa using fun hm => hnotin (List.mem_append_left _ hm))
    · exact absurd (hid ▸ occursF_id_mem hbrest)
        (by rw [hae]; simpa using fun hm => hnotin (List.mem_append_right _ hm))
    · exact absurd (hid ▸ occursF_id_mem hacs)
        (by rw [hbe]; simpa using fun hm => hnotin (List.mem_append_left _ hm))
    · exact ihcs hndcs hacs hbcs hid
    · exact absurd (occursF_id_mem hbrest) (hid ▸ hdisj (occursF_id_mem hacs))
    · exact absurd (hid ▸ occursF_id_mem harest)
        (by rw [hbe]; simpa using fun hm => hnotin (List.mem_append_right _ hm))
    · exact absurd (occursF_id_mem hbcs) (fun hm => hdisj hm (hid ▸ occursF_id_mem harest))
    · exact ihrest hndrest harest hbrest hid
  | case3 i nm hc ty ic rest ihrest =>
    intro a b ha hb hid
    rw [allIdsF_cons_none, List.nodup_cons] at hnd
    rcases (occursF_cons_none ..).mp ha with hae | harest <;>
      rcases (occursF_cons_none ..).mp hb with hbe | hbrest
    · rw [hae, hbe]
    · exact absurd (hid ▸ occursF_id_mem hbrest) (by rw [hae]; simpa using hnd.1)
    · exact absurd (hid ▸ occursF_id_mem harest) (by rw [hbe]; simpa using hnd.1)
    · exact ihrest hnd.2 harest hbrest hid

/-- Within one loaded sibling list with globally distinct ids, an id that
lies in the subtree of one sibling can only be another sibling's id if the
two coincide. -/
theorem id_in_sibling_subtree {cs : List TreeNode} (hnd : (allIdsF cs).Nodup) :
    ∀ {x y : TreeNode}, x ∈ cs → y ∈ cs → y.id ∈ idsN x → y.id = x.id := by
  induction cs with
  | nil =>
    intro x y hx
    cases hx
  | cons h0 t ih =>
    intro x y hx hy hmem
    rw [allIdsF_cons, List.nodup_append] at hnd
    obtain ⟨hnd1, hnd2, hdisj⟩ := hnd
    rcases List.mem_cons.mp hx with hxe | hxt <;> rcases List.mem_cons.mp hy with hye | hyt
    · rw [hye, hxe]
    · exact absurd (hxe ▸ hmem) (fun hm => hdisj hm (idsN_sub_of_mem hyt _ (id_mem_idsN y)))
    · exact absurd (idsN_sub_of_mem hxt _ hmem) (fun hm => hdisj (hye ▸ id_mem_idsN h0) hm)
    · exact ih hnd2 hxt hyt hmem

/-- The path found for an id that lies strictly inside the subtree of an
occurring node `m` passes through `m` (unique ids). -/
theorem chain_through_ancestor {l : List TreeNode} (hnd : (allIdsF l).Nodup)
    {m : TreeNode} (hm : occursF m l) {csm : List TreeNode}
    (hch : m.children = some csm) {t : String} (ht : t ∈ allIdsF csm) :
    ∀ {ancs : List TreeNode} {n : TreeNode}, Chain l ancs n → n.id = t →
      m.id ∈ ancs.map TreeNode.id := by
  induction l using allIdsF.induct with
  | case1 => exact absurd hm (occursF_nil m)
  | case2 i nm hc cs ty ic rest ihcs ihrest =>
    intro ancs n hchain hn
    rw [allIdsF_cons_some, List.nodup_cons, List.nodup_append] at hnd
    obtain ⟨hnotin, hndcs, hndrest, hdisj⟩ := hnd
    have hmN : ∀ x ∈ allIdsF csm, x ∈ idsN m := sub_idsN_of_children hch
    cases hchain with
    | here hmem =>
      exfalso
      rcases List.mem_cons.mp hmem with hne | hnr
      · have hti : t = i := by rw [← hn, hne]; simp
        rcases (occursF_cons_some ..).mp hm with hme | hmcs | hmrest
        · have hcsm : csm = cs := by
            rw [hme] at hch
            simp at hch
            exact hch.symm
          exact hnotin (hti ▸ List.mem_append_left _ (hcsm ▸ ht))
        · exact hnotin (hti ▸ List.mem_append_left _ (occursF_ids_sub hmcs _ (hmN t ht)))
        · exact hnotin (hti ▸ List.mem_append_right _ (occursF_ids_sub hmrest _ (hmN t ht)))
      · have htr : t ∈ allIdsF rest := hn ▸ occursF_id_mem (occursF_of_mem hnr)
        rcases (occursF_cons_some ..).mp hm with hme | hmcs | hmrest
        · have hcsm : csm = cs := by
            rw [hme] at hch
            simp at hch
            exact hch.symm
          exact hdisj (hcsm ▸ ht) htr
        · exact hdisj (occursF_ids_sub hmcs _ (hmN t ht)) htr
        · have := ihrest hndrest hmrest (Chain.here hnr) hn
          simp at this
    | via hmem hcha hcc =>
      rename_i a csa ancs2
      rcases List.mem_cons.mp hmem with hae | har
      · have hcsa : csa = cs := by
          rw [hae] at hcha
          simp at hcha
          exact hcha.symm
        rcases (occursF_cons_some ..).mp hm with hme | hmcs | hmrest
        · have hmi : m.id = a.id := by rw [hme, hae]
          rw [List.map_cons, hmi]
          exact List.mem_cons_self _ _
        · have := ihcs hndcs hmcs (hcsa ▸ hcc) hn
          rw [List.map_cons]
          exact List.mem_cons_of_mem _ this
        · exfalso
          have h1 : t ∈ allIdsF rest := occursF_ids_sub hmrest _ (hmN t ht)
          have h2 : t ∈ allIdsF cs :=
            hcsa ▸ (hn ▸ occursF_id_mem (chain_occursF hcc))
          exact hdisj h2 h1
      · rcases (occursF_cons_some ..).mp hm with hme | hmcs | hmrest
        · exfalso
          have hcsm : csm = cs := by
            rw [hme] at hch
            simp at hch
            exact hch.symm
          have h2 : t ∈ allIdsF rest := by
            have hocc : occursF n rest :=
              chain_occursF (Chain.via har hcha hcc)
            exact hn ▸ occursF_id_mem hocc
          exact hdisj (hcsm ▸ ht) h2
        · exfalso
          have h1 : t ∈ allIdsF cs := occursF_ids_sub hmcs _ (hmN t ht)
          have h2 : t ∈ allIdsF rest := by
            have hocc : occursF n rest :=
              chain_occursF (Chain.via har hcha hcc)
            exact hn ▸ occursF_id_mem hocc
          exact hdisj h1 h2
        · exact ihrest hndrest hmrest (Chain.via har hcha hcc) hn
  | case3 i nm hc ty ic rest ihrest =>
    intro ancs n hchain hn
    rw [allIdsF_cons_none, List.nodup_cons] at hnd
    obtain ⟨hnotin, hndrest⟩ := hnd
    have hmN : ∀ x ∈ allIdsF csm, x ∈ idsN m := sub_idsN_of_children hch
    cases hchain with
    | here hmem =>
      exfalso
      rcases List.mem_cons.mp hmem with hne | hnr
      · have hti : t = i := by rw [← hn, hne]; simp
        rcases (occursF_cons_none ..).mp hm with hme | hmrest
        · rw [hme] at hch
          simp at hch
        · exact hnotin (hti ▸ occursF_ids_sub hmrest _ (hmN t ht))
      · rcases (occursF_cons_none ..).mp hm with hme | hmrest
        · rw [hme] at hch
          simp at hch
        · have := ihrest hndrest hmrest (Chain.here hnr) hn
          simp at this
    | via hmem hcha hcc =>
      rename_i a csa ancs2
      rcases List.mem_cons.mp hmem with hae | har
      · exfalso
        rw [hae] at hcha
        simp at hcha
      · rcases (occursF_cons_none ..).mp hm with hme | hmrest
        · rw [hme] at hch
          simp at hch
        · exact ihrest hndrest hmrest (Chain.via har hcha hcc) hn

/-- With unique ids, the depth-first search finds exactly the occurring
node with the searched id. -/
theorem fnap_finds_occurrence {l : List TreeNode} (hnd : (allIdsF l).Nodup)
    {d : TreeNode} (hocc : occursF d l) :
    ∃ p, fnapList d.id l [] = some (d, p) := by
  obtain ⟨r, hr⟩ := fnap_found_of_mem d.id l [] (occursF_id_mem hocc)
  obtain ⟨n, p⟩ := r
  obtain ⟨hid, ancs, hch, _⟩ := fnap_chain d.id l [] n p hr
  have : n = d := occurs_unique hnd (chain_occursF hch) hocc hid
  exact ⟨p, this ▸ hr⟩

/-! ### Checked-set fold lemmas -/

theorem mem_foldInsert (s : Finset String) (ids : List String) (x : String) :
    x ∈ foldInsert s ids ↔ x ∈ s ∨ x ∈ ids := by
  induction ids generalizing s with
  | nil => simp [foldInsert]
  | cons a t ih =>
    rw [foldInsert, List.foldl_cons]
    rw [show (t.foldl (fun u y => insert y u) (insert a s)) = foldInsert (insert a s) t from rfl]
    rw [ih]
    simp [Finset.mem_insert]
    tauto

theorem mem_foldErase (s : Finset String) (ids : List String) (x : String) :
    x ∈ foldErase s ids ↔ x ∈ s ∧ x ∉ ids := by
  induction ids generalizing s with
  | nil => simp [foldErase]
  | cons a t ih =>
    rw [foldErase, List.foldl_cons]
    rw [show (t.foldl (fun u y => u.erase y) (s.erase a)) = foldErase (s.erase a) t from rfl]
    rw [ih]
    simp [Finset.mem_erase]
    tauto

/-! ### Helper views used in the checkbox claims -/

/-- The loaded children list of a node (empty when unloaded). -/
def loadedChildren (n : TreeNode) : List TreeNode := n.children.getD []

/-- Number of a node's loaded children whose id is in the checked set. -/
def checkedChildCount (checkedNodes : Finset String) (n : TreeNode) : Nat :=
  ((loadedChildren n).filter (fun c => decide (c.id ∈ checkedNodes))).length

/-! ### Concrete example nodes used in counterexamples and witnesses -/

/-- A loaded leaf. -/
def leafA1 : TreeNode := .mk "A1" "a1" false (some []) none none

/-- A second loaded leaf. -/
def leafA2 : TreeNode := .mk "A2" "a2" false (some []) none none

/-- A folder with two loaded children. -/
def nodeA : TreeNode := .mk "A" "a" true (some [leafA1, leafA2]) none none

/-- A loaded leaf used as an only child. -/
def leafC : TreeNode := .mk "C" "c" false (some []) none none

/-- A folder whose only loaded child is `leafC`. -/
def parentP : TreeNode := .mk "P" "p" true (some [leafC]) none none

/-- A folder whose children were never fetched. -/
def nodeU : TreeNode := .mk "U" "u" true none none none

/-! ### Claim C1 -/

/-- C1, counterexample: with both loaded children of `nodeA` checked and
`nodeA` itself unchecked, the render reports indeterminate although the
claimed condition `0 < |checked ∩ children| < |children|` is false (the
count equals the total).  The code tests only `checkedChildrenCount > 0`. -/
theorem c1_counterexample :
    isIndeterminate {"A1", "A2"} nodeA = true ∧
    ¬(isIndeterminate {"A1", "A2"} nodeA = true ↔
        ("A" ∉ ({"A1", "A2"} : Finset String) ∧
         0 < checkedChildCount {"A1", "A2"} nodeA ∧
         checkedChildCount {"A1", "A2"} nodeA < (loadedChildren nodeA).length)) := by
  have hcount : checkedChildCount {"A1", "A2"} nodeA = 2 := by
    simp [checkedChildCount, loadedChildren, nodeA, leafA1, leafA2]
  have hlen : (loadedChildren nodeA).length = 2 := by
    simp [loadedChildren, nodeA]
  have hval : isIndeterminate {"A1", "A2"} nodeA = true := by
    simp [isIndeterminate, nodeA, leafA1, leafA2]
  refine ⟨hval, fun hiff => ?_⟩
  have := hiff.mp hval
  rw [hcount, hlen] at this
  exact absurd this.2.2 (by simp)

/-- C1, amended: for a node with loaded non-empty children, the row is
indeterminate iff the node itself is not checked and at least one loaded
child is checked (no upper bound: a node all of whose children are checked
but which is itself unchecked is also reported indeterminate). -/
theorem c1_indeterminate_iff (checkedNodes : Finset String) (n : TreeNode)
    (cs : List TreeNode) (hch : n.children = some cs) (hne : cs ≠ []) :
    isIndeterminate checkedNodes n = true ↔
      (n.id ∉ checkedNodes ∧ 0 < checkedChildCount checkedNodes n) := by
  cases n with
  | mk i nm hc ch ty ic =>
    simp only [TreeNode.children_mk] at hch
    subst hch
    have hemp : cs.isEmpty = false := by
      simpa [List.isEmpty_iff] using hne
    simp [isIndeterminate, checkedChildCount, loadedChildren, hemp,
      Bool.and_eq_true, decide_eq_true_eq]

/-- C1 witness: concrete application of the amended equivalence. -/
theorem c1_witness : isIndeterminate {"A1"} nodeA = true :=
  (c1_indeterminate_iff {"A1"} nodeA [leafA1, leafA2] (by simp [nodeA]) (by simp)).mpr
    ⟨by simp [nodeA], by simp [checkedChildCount, loadedChildren, nodeA, leafA1, leafA2]⟩

/-! ### Claim C2 -/

/-- C2, counterexample: removing the only child of `parentP` hands back a
parent whose `children` field is the unloaded sentinel (`none`), not the
loaded-empty list, because `processNodeList` returns
`updatedList.length === 0 ? null : updatedList`. -/
theorem c2_counterexample :
    (findAndRemoveNode (some [parentP]) "C").1 =
      some [TreeNode.mk "P" "p" false none none none] ∧
    (TreeNode.mk "P" "p" false none none none).children ≠ some [] ∧
    (findAndRemoveNode (some [parentP]) "C").2 = some leafC := by
  refine ⟨?_, by simp, ?_⟩ <;>
    simp [findAndRemoveNode, remList, remTop, remMap, parentP, leafC,
      TreeNode.withChildren]

/-- C2, amended: when `findAndRemoveNode` removes a parent's only child, the
parent's `children` field in the returned tree is the unloaded sentinel
(`none`) and `hasChildren` becomes `false` — a mutation can transition a
node's children from loaded back to unloaded. -/
theorem c2_amended (i nm : String) (hc : Bool) (ty ic : Option String)
    (c : TreeNode) (rest : List TreeNode) (nodeId : String)
    (hci : c.id = nodeId) (hne : i ≠ nodeId) (hrest : remTop nodeId rest = none) :
    findAndRemoveNode (some (TreeNode.mk i nm hc (some [c]) ty ic :: rest)) nodeId =
      (some (TreeNode.mk i nm false none ty ic :: rest), some c) := by
  simp [findAndRemoveNode, remList, remTop, remMap, hci, hne, hrest,
    TreeNode.withChildren]

/-- C2 witness: the amended statement applied at the concrete tree `[P[C]]`. -/
theorem c2_witness :
    findAndRemoveNode (some [parentP]) "C" =
      (some [TreeNode.mk "P" "p" false none none none], some leafC) := by
  have h := c2_amended "P" "p" true none none leafC [] "C"
    (by simp [leafC]) (by simp) (by simp [remTop])
  simpa [parentP] using h

/-! ### Claim C4 -/

/-- C4, counterexample: `"C"` is in the tree and is the current selection;
removing its ancestor `"P"` deletes the whole subtree (the selected id
disappears from the tree) but the selection stays `"C"` and no deselection
notification fires, because `removeNode` compares only the removed id with
the selected id. -/
theorem c4_counterexample :
    "C" ∈ allIdsF [parentP] ∧
    (removeNode (some [parentP]) (some "C") ∅ "P").treeData = none ∧
    (removeNode (some [parentP]) (some "C") ∅ "P").selectedNodeId = some "C" ∧
    (removeNode (some [parentP]) (some "C") ∅ "P").deselectCalls = 0 := by
  refine ⟨by simp [allIdsF, parentP, leafC], ?_, ?_, ?_⟩ <;>
    simp [removeNode, findAndRemoveNode, remList, remTop, parentP]

/-- C4, amended: a successful `removeNode` transitions the selection to
no-selection and fires the deselection notification exactly once precisely
when the removed id itself equals the selected id; removing a (proper
ancestor of the) selected node otherwise leaves the selection and the
notification count untouched. -/
theorem c4_amended (treeData : Option (List TreeNode)) (sel : Option String)
    (checked : Finset String) (nodeId : String)
    (h : (removeNode treeData sel checked nodeId).returned = true) :
    (sel = some nodeId →
      (removeNode treeData sel checked nodeId).selectedNodeId = none ∧
      (removeNode treeData sel checked nodeId).deselectCalls = 1) ∧
    (sel ≠ some nodeId →
      (removeNode treeData sel checked nodeId).selectedNodeId = sel ∧
      (removeNode treeData sel checked nodeId).deselectCalls = 0) := by
  rcases hrm : (findAndRemoveNode treeData nodeId).2 with _ | m
  · simp [removeNode, hrm] at h
  · constructor
    · intro hsel
      simp [removeNode, hrm, hsel]
    · intro hsel
      simp [removeNode, hrm, hsel]

/-- C4 witness: removing the selected node itself does deselect with one
notification. -/
theorem c4_witness :
    (removeNode (some [parentP]) (some "P") ∅ "P").selectedNodeId = none ∧
    (removeNode (some [parentP]) (some "P") ∅ "P").deselectCalls = 1 :=
  (c4_amended (some [parentP]) (some "P") ∅ "P"
    (by simp [removeNode, findAndRemoveNode, remList, remTop, parentP])).1 rfl

/-! ### Claim C10 -/

/-- C10: a successful `removeNode(nodeId)` changes the checked set by
deleting exactly `nodeId` (a no-op when it was not a member): every other
id — in particular every descendant of the removed node — keeps its
membership, and no ancestor recomputation happens. -/
theorem c10_checked_removal (treeData : Option (List TreeNode)) (sel : Option String)
    (checked : Finset String) (nodeId : String)
    (h : (removeNode treeData sel checked nodeId).returned = true) :
    (removeNode treeData sel checked nodeId).checkedNodes = checked.erase nodeId ∧
    ∀ x, x ≠ nodeId →
      (x ∈ (removeNode treeData sel checked nodeId).checkedNodes ↔ x ∈ checked) := by
  rcases hrm : (findAndRemoveNode treeData nodeId).2 with _ | m
  · simp [removeNode, hrm] at h
  · by_cases hmem : nodeId ∈ checked
    · constructor
      · simp [removeNode, hrm, hmem]
      · intro x hx
        simp [removeNode, hrm, hmem, Finset.mem_erase, hx]
    · constructor
      · simp [removeNode, hrm, hmem, Finset.erase_eq_of_not_mem hmem]
      · intro x hx
        simp [removeNode, hrm, hmem]

/-- C10 witness: removing checked `"C"` keeps the unrelated checked id. -/
theorem c10_witness :
    (removeNode (some [parentP]) none {"C", "X"} "C").checkedNodes =
      ({"C", "X"} : Finset String).erase "C" :=
  (c10_checked_removal (some [parentP]) none {"C", "X"} "C"
    (by simp [removeNode, findAndRemoveNode, remList, remTop, remMap, parentP, leafC,
      TreeNode.withChildren])).1

/-! ### Claim C7 -/

/-- C7: flattening emits a node's loaded children immediately after its own
row iff the node is in the open set and its loaded child list is non-empty,
at depth exactly one greater; when the node is closed, unloaded, or
loaded-empty, the next emitted row is the rest of the sibling list at the
same depth; and with an empty open set the flattening of a tree is exactly
the top-level rows in order, all built at depth 0. -/
theorem c7_flatten (openNodes loadingChildren : Finset String) :
    (∀ (n : TreeNode) (rest : List TreeNode) (depth : Nat) (cs : List TreeNode),
      n.children = some cs → n.id ∈ openNodes → cs ≠ [] →
      flattenList openNodes loadingChildren (n :: rest) depth =
        toFlatNode openNodes loadingChildren depth n ::
          (flattenList openNodes loadingChildren cs (depth + 1) ++
           flattenList openNodes loadingChildren rest depth)) ∧
    (∀ (n : TreeNode) (rest : List TreeNode) (depth : Nat),
      (n.id ∉ openNodes ∨ n.children = none ∨ n.children = some []) →
      flattenList openNodes loadingChildren (n :: rest) depth =
        toFlatNode openNodes loadingChildren depth n ::
          flattenList openNodes loadingChildren rest depth) ∧
    (∀ l : List TreeNode,
      flattenTree (some l) ∅ 0 loadingChildren =
        l.map (toFlatNode ∅ loadingChildren 0)) := by
  refine ⟨?_, ?_, ?_⟩
  · intro n rest depth cs hch hopen hne
    cases n with
    | mk i nm hc ch ty ic =>
      simp only [TreeNode.children_mk] at hch
      subst hch
      have hemp : ¬cs.isEmpty := by simpa [List.isEmpty_iff] using hne
      rw [flattenList, if_pos ⟨by simpa using hopen, hemp⟩]
  · intro n rest depth hcond
    cases n with
    | mk i nm hc ch ty ic =>
      rcases hcond with hopen | hnone | hempty
      · cases ch with
        | some cs =>
          rw [flattenList, if_neg (by simp at hopen; simp [hopen])]
          simp
        | none => rw [flattenList]
      · simp only [TreeNode.children_mk] at hnone
        subst hnone
        rw [flattenList]
      · simp only [TreeNode.children_mk] at hempty
        subst hempty
        rw [flattenList, if_neg (by simp)]
        simp
  · intro l
    rw [flattenTree]
    induction l with
    | nil => rw [flattenList]; simp
    | cons n rest ih =>
      cases n with
      | mk i nm hc ch ty ic =>
        cases ch with
        | some cs =>
          rw [flattenList, if_neg (by simp)]
          simp only [List.map_cons]
          rw [← ih]
          simp
        | none =>
          rw [flattenList]
          simp only [List.map_cons]
          rw [← ih]

/-- C7 witness: the two emission cases and the empty-open-set case applied
to the concrete forest `[A[A1, A2], U]` with `A` open. -/
theorem c7_witness :
    flattenList {"A"} ∅ [nodeA, nodeU] 0 =
      toFlatNode {"A"} ∅ 0 nodeA ::
        (flattenList {"A"} ∅ [leafA1, leafA2] 1 ++ flattenList {"A"} ∅ [nodeU] 0) ∧
    flattenTree (some [nodeA, nodeU]) ∅ 0 ∅ =
      [toFlatNode ∅ ∅ 0 nodeA, toFlatNode ∅ ∅ 0 nodeU] := by
  constructor
  · exact (c7_flatten {"A"} ∅).1 nodeA [nodeU] 0 [leafA1, leafA2]
      (by simp [nodeA]) (by simp [nodeA]) (by simp)
  · simpa using (c7_flatten ∅ ∅).2.2 [nodeA, nodeU]

/-! ### Claim C8 -/

/-- C8, counterexample: an `expandNode` call whose child fetch fails leaves
the id in the open set — the speculative expand is *not* rolled back in the
imperative `expandNode` path (only `toggleNode` rolls back), refuting the
claim for `expand(id)` calls made through the imperative handle. -/
theorem c8_counterexample :
    "U" ∈ (expandNode ⟨some [nodeU], ∅, ∅⟩ "U" false
            (fun _ => Except.error "boom")).state.openNodes ∧
    (expandNode ⟨some [nodeU], ∅, ∅⟩ "U" false
      (fun _ => Except.error "boom")).errorsSurfaced = 1 ∧
    (expandNode ⟨some [nodeU], ∅, ∅⟩ "U" false
      (fun _ => Except.error "boom")).state.treeData = some [nodeU] := by
  refine ⟨?_, ?_, ?_⟩ <;>
    simp [expandNode, nodeMapGet, allNodesF, nodeU, phase1F, foldInsert, foldErase,
      mem_foldInsert]

/-- C8, amended: when a child fetch fails, the node is left unloaded (the
tree is unchanged), the failure is surfaced once, and the loading flag for
the id is cleared exactly once; the speculative open-set entry is rolled
back in the `toggleNode` path, but in the imperative `expandNode` path the
id *remains* in the open set.  On a successful `toggleNode` fetch the
loading flag is likewise cleared exactly once. -/
theorem c8_amended :
    (∀ (st : TVState) (id : String) (fetch : String → Except String (List TreeNode))
       (e : String),
      fetch id = Except.error e → id ∉ st.loadingChildren →
      (toggleNode st id false true false fetch).state.treeData = st.treeData ∧
      id ∉ (toggleNode st id false true false fetch).state.openNodes ∧
      (toggleNode st id false true false fetch).errorsSurfaced = 1 ∧
      (toggleNode st id false true false fetch).loadingReleases = [id] ∧
      (toggleNode st id false true false fetch).state.loadingChildren =
        st.loadingChildren) ∧
    (∀ (st : TVState) (id : String) (fetch : String → Except String (List TreeNode))
       (d : List TreeNode),
      fetch id = Except.ok d → id ∉ st.loadingChildren →
      (toggleNode st id false true false fetch).loadingReleases = [id] ∧
      (toggleNode st id false true false fetch).state.loadingChildren =
        st.loadingChildren) ∧
    (∀ (st : TVState) (nodeId : String) (l : List TreeNode) (n : TreeNode)
       (fetch : String → Except String (List TreeNode)) (e : String),
      st.treeData = some l → nodeMapGet l nodeId = some n →
      n.hasChildren = true → n.children = none → nodeId ∉ st.loadingChildren →
      fetch nodeId = Except.error e →
      (expandNode st nodeId false fetch).state.treeData = st.treeData ∧
      nodeId ∈ (expandNode st nodeId false fetch).state.openNodes ∧
      (expandNode st nodeId false fetch).errorsSurfaced = 1 ∧
      (expandNode st nodeId false fetch).loadingReleases = [nodeId] ∧
      (expandNode st nodeId false fetch).state.loadingChildren =
        st.loadingChildren) := by
  refine ⟨?_, ?_, ?_⟩
  · intro st id fetch e hf hl
    rw [toggleNode]
    simp [hf, hl, Finset.erase_insert (by simpa using hl)]
  · intro st id fetch d hf hl
    rw [toggleNode]
    simp [hf, hl, Finset.erase_insert (by simpa using hl)]
  · intro st nodeId l n fetch e htree hmap hhc hch hl hf
    have hid : n.id = nodeId := nodeMapGet_id hmap
    cases n with
    | mk i nm hc ch ty ic =>
      simp only [TreeNode.id_mk] at hid
      simp only [TreeNode.hasChildren_mk] at hhc
      simp only [TreeNode.children_mk] at hch
      subst hid hhc hch
      rw [expandNode]
      simp [htree, hmap, phase1F, hl, hf, foldInsert, foldErase,
        Finset.erase_insert (by simpa using hl)]

/-- C8 witness: the amended statement applied to a concrete failing fetch
through the imperative `expandNode` path. -/
theorem c8_witness :
    "U" ∈ (expandNode ⟨some [nodeU], ∅, ∅⟩ "U" false
            (fun _ => Except.error "x")).state.openNodes ∧
    (expandNode ⟨some [nodeU], ∅, ∅⟩ "U" false
      (fun _ => Except.error "x")).loadingReleases = ["U"] := by
  have h := c8_amended.2.2 ⟨some [nodeU], ∅, ∅⟩ "U" [nodeU] nodeU
    (fun _ => Except.error "x") "x" rfl
    (by simp [nodeMapGet, allNodesF, nodeU]) (by simp [nodeU]) (by simp [nodeU])
    (by simp) rfl
  exact ⟨h.2.1, h.2.2.2.1⟩

/-! ### Frame lemmas for the copy-on-write mutations -/

theorem top_id_mem {n : TreeNode} {l : List TreeNode} (h : n ∈ l) :
    n.id ∈ allIdsF l :=
  occursF_id_mem (occursF_of_mem h)

theorem updList_not_found (nodeId : String) (d : List TreeNode) :
    ∀ l : List TreeNode, nodeId ∉ allIdsF l → updList nodeId d l = (l, false) := by
  intro l
  induction l using allIdsF.induct with
  | case1 => intro _; simp [updList]
  | case2 i nm hc cs ty ic rest ihcs ihrest =>
    intro h
    rw [allIdsF_cons_some] at h
    simp only [List.mem_cons, List.mem_append] at h
    push_neg at h
    obtain ⟨hne, hcs, hrest⟩ := h
    have hne2 : ¬ i = nodeId := fun he => hne he.symm
    rw [updList]
    simp only [if_neg hne2, ihcs hcs, ihrest hrest]
    by_cases hemp : cs.isEmpty <;> simp [hemp]
  | case3 i nm hc ty ic rest ihrest =>
    intro h
    rw [allIdsF_cons_none] at h
    simp only [List.mem_cons] at h
    push_neg at h
    obtain ⟨hne, hrest⟩ := h
    have hne2 : ¬ i = nodeId := fun he => hne he.symm
    rw [updList]
    simp [if_neg hne2, ihrest hrest]

theorem updList_frame (nodeId : String) (d : List TreeNode) :
    ∀ l : List TreeNode, ∀ j n, l.get? j = some n → nodeId ∉ idsN n →
      (updList nodeId d l).1.get? j = some n := by
  intro l
  induction l with
  | nil => intro j n h; simp at h
  | cons n0 rest ih =>
    intro j n hj hnotin
    cases j with
    | zero =>
      have hj2 : n0 = n := by simpa using hj
      subst hj2
      cases n0 with
      | mk i nm hc ch ty ic =>
        have hidmem : i ∈ idsN (TreeNode.mk i nm hc ch ty ic) := by
          simpa using id_mem_idsN (TreeNode.mk i nm hc ch ty ic)
        have hne : ¬ i = nodeId := fun he => hnotin (he ▸ hidmem)
        cases ch with
        | some cs =>
          have hcs : nodeId ∉ allIdsF cs := by
            intro hm
            exact hnotin (sub_idsN_of_children (m := TreeNode.mk i nm hc (some cs) ty ic)
              rfl nodeId hm)
          rw [updList]
          simp only [if_neg hne, updList_not_found nodeId d cs hcs]
          by_cases hemp : cs.isEmpty <;> simp [hemp]
        | none =>
          rw [updList]
          simp [if_neg hne]
    | succ j =>
      simp only [List.get?] at hj
      cases n0 with
      | mk i0 nm0 hc0 ch0 ty0 ic0 =>
        cases ch0 with
        | some cs0 =>
          rw [updList]
          simpa using ih j n hj hnotin
        | none =>
          rw [updList]
          simpa using ih j n hj hnotin

theorem updDataList_not_found (nodeId : String) (u : NodeUpdates) :
    ∀ l : List TreeNode, nodeId ∉ allIdsF l → updDataList nodeId u l = (l, false) := by
  intro l
  induction l using allIdsF.induct with
  | case1 => intro _; simp [updDataList]
  | case2 i nm hc cs ty ic rest ihcs ihrest =>
    intro h
    rw [allIdsF_cons_some] at h
    simp only [List.mem_cons, List.mem_append] at h
    push_neg at h
    obtain ⟨hne, hcs, hrest⟩ := h
    have hne2 : ¬ i = nodeId := fun he => hne he.symm
    rw [updDataList]
    simp [if_neg hne2, ihcs hcs, ihrest hrest]
  | case3 i nm hc ty ic rest ihrest =>
    intro h
    rw [allIdsF_cons_none] at h
    simp only [List.mem_cons] at h
    push_neg at h
    obtain ⟨hne, hrest⟩ := h
    have hne2 : ¬ i = nodeId := fun he => hne he.symm
    rw [updDataList]
    simp [if_neg hne2, ihrest hrest]

theorem updDataList_frame (nodeId : String) (u : NodeUpdates) :
    ∀ l : List TreeNode, ∀ j n, l.get? j = some n → nodeId ∉ idsN n →
      (updDataList nodeId u l).1.get? j = some n := by
  intro l
  induction l with
  | nil => intro j n h; simp at h
  | cons n0 rest ih =>
    intro j n hj hnotin
    cases j with
    | zero =>
      have hj2 : n0 = n := by simpa using hj
      subst hj2
      cases n0 with
      | mk i nm hc ch ty ic =>
        have hidmem : i ∈ idsN (TreeNode.mk i nm hc ch ty ic) := by
          simpa using id_mem_idsN (TreeNode.mk i nm hc ch ty ic)
        have hne : ¬ i = nodeId := fun he => hnotin (he ▸ hidmem)
        cases ch with
        | some cs =>
          have hcs : nodeId ∉ allIdsF cs := by
            intro hm
            exact hnotin (sub_idsN_of_children (m := TreeNode.mk i nm hc (some cs) ty ic)
              rfl nodeId hm)
          rw [updDataList]
          simp [if_neg hne, updDataList_not_found nodeId u cs hcs]
        | none =>
          rw [updDataList]
          simp [if_neg hne]
    | succ j =>
      simp only [List.get?] at hj
      cases n0 with
      | mk i0 nm0 hc0 ch0 ty0 ic0 =>
        cases ch0 with
        | some cs0 =>
          rw [updDataList]
          simpa using ih j n hj hnotin
        | none =>
          rw [updDataList]
          simpa using ih j n hj hnotin

theorem addRec_frame (newNode : TreeNode) (p : String) (rem : List String) :
    ∀ l : List TreeNode, ∀ j n, l.get? j = some n → n.id ≠ p →
      (addRec newNode l (p :: rem)).1.get? j = some n := by
  intro l
  induction l with
  | nil => intro j n h; simp at h
  | cons n0 rest ih =>
    intro j n hj hne
    cases j with
    | zero =>
      have hj2 : n0 = n := by simpa using hj
      subst hj2
      cases n0 with
      | mk i nm hc ch ty ic =>
        have hip : ¬ i = p := by simpa using hne
        cases ch with
        | some cs =>
          rw [addRec.eq_def]
          simp [if_neg hip]
        | none =>
          rw [addRec.eq_def]
          simp
    | succ j =>
      simp only [List.get?] at hj
      cases n0 with
      | mk i0 nm0 hc0 ch0 ty0 ic0 =>
        cases ch0 with
        | some cs0 =>
          rw [addRec.eq_def]
          simpa using ih j n hj hne
        | none =>
          rw [addRec.eq_def]
          simpa using ih j n hj hne

theorem remTop_none_of_not_found (nodeId : String) :
    ∀ l : List TreeNode, nodeId ∉ allIdsF l → remTop nodeId l = none := by
  intro l
  induction l with
  | nil => intro _; simp [remTop]
  | cons n0 rest ih =>
    intro h
    rw [allIdsF_cons] at h
    simp only [List.mem_append] at h
    push_neg at h
    obtain ⟨hn0, hrest⟩ := h
    have hne : ¬ n0.id = nodeId := fun he => hn0 (he ▸ id_mem_idsN n0)
    rw [remTop, if_neg hne, ih hrest]

theorem remTop_spec (nodeId : String) :
    ∀ l l1 : List TreeNode, ∀ m : TreeNode, remTop nodeId l = some (l1, m) →
      m.id = nodeId ∧ m ∈ l ∧ ∀ n ∈ l, n = m ∨ n ∈ l1 := by
  intro l
  induction l with
  | nil => intro l1 m h; simp [remTop] at h
  | cons n0 rest ih =>
    intro l1 m h
    rw [remTop] at h
    by_cases hne : n0.id = nodeId
    · rw [if_pos hne] at h
      injection h with h
      injection h with h1 h2
      subst h1
      subst h2
      refine ⟨hne, List.mem_cons_self _ _, ?_⟩
      intro n hn
      rcases List.mem_cons.mp hn with he | ht
      · exact Or.inl he
      · exact Or.inr ht
    · rw [if_neg hne] at h
      rcases hr : remTop nodeId rest with _ | pr
      · rw [hr] at h; simp at h
      · obtain ⟨r1, m1⟩ := pr
        rw [hr] at h
        simp only at h
        injection h with h
        injection h with h1 h2
        subst h1
        subst h2
        obtain ⟨hm1, hmem, hrest⟩ := ih r1 m1 hr
        refine ⟨hm1, List.mem_cons_of_mem _ hmem, ?_⟩
        intro n hn
        rcases List.mem_cons.mp hn with he | ht
        · exact Or.inr (by rw [he]; exact List.mem_cons_self _ _)
        · rcases hrest n ht with hh | hh
          · exact Or.inl hh
          · exact Or.inr (List.mem_cons_of_mem _ hh)

theorem remMap_found_id (nodeId : String) :
    ∀ l : List TreeNode, ∀ m, (remMap nodeId l).2 = some m → nodeId ∈ allIdsF l := by
  intro l
  induction l using allIdsF.induct with
  | case1 => intro m h; simp [remMap] at h
  | case2 i nm hc cs ty ic rest ihcs ihrest =>
    intro m h
    rcases ht : remTop nodeId cs with _ | pr
    · rcases hmm : (remMap nodeId cs).2 with _ | m2
      · simp [remMap, ht, hmm] at h
        rw [allIdsF_cons_some]
        exact List.mem_cons_of_mem _ (List.mem_append_right _ (ihrest m h))
      · rw [allIdsF_cons_some]
        exact List.mem_cons_of_mem _ (List.mem_append_left _ (ihcs m2 hmm))
    · obtain ⟨l1, m1⟩ := pr
      obtain ⟨hm1, hmem, _⟩ := remTop_spec nodeId cs l1 m1 ht
      rw [allIdsF_cons_some]
      exact List.mem_cons_of_mem _ (List.mem_append_left _ (hm1 ▸ top_id_mem hmem))
  | case3 i nm hc ty ic rest ihrest =>
    intro m h
    simp [remMap] at h
    rw [allIdsF_cons_none]
    exact List.mem_cons_of_mem _ (ihrest m h)

theorem remMap_mem_frame (nodeId : String) :
    ∀ l : List TreeNode, ∀ n ∈ l, nodeId ∉ idsN n → n ∈ (remMap nodeId l).1 := by
  intro l
  induction l with
  | nil => intro n h; cases h
  | cons n0 rest ih =>
    intro n hn hnotin
    cases n0 with
    | mk i0 nm0 hc0 ch0 ty0 ic0 =>
      cases ch0 with
      | some cs0 =>
        rcases ht : remTop nodeId cs0 with _ | pr
        · rcases hmm : (remMap nodeId cs0).2 with _ | m2
          · rcases List.mem_cons.mp hn with he | hrest
            · simp only [remMap, ht, hmm]
              exact he ▸ List.mem_cons_self _ _
            · simp only [remMap, ht, hmm]
              exact List.mem_cons_of_mem _ (ih n hrest hnotin)
          · rcases List.mem_cons.mp hn with he | hrest
            · exfalso
              have hmem2 : nodeId ∈ allIdsF cs0 := remMap_found_id nodeId cs0 m2 hmm
              have hsub : nodeId ∈ idsN (TreeNode.mk i0 nm0 hc0 (some cs0) ty0 ic0) :=
                sub_idsN_of_children (m := TreeNode.mk i0 nm0 hc0 (some cs0) ty0 ic0)
                  rfl nodeId hmem2
              rw [he] at hnotin
              exact hnotin hsub
            · simp only [remMap, ht, hmm]
              exact List.mem_cons_of_mem _ hrest
        · obtain ⟨l1, m1⟩ := pr
          rcases List.mem_cons.mp hn with he | hrest
          · exfalso
            obtain ⟨hm1, hmem, _⟩ := remTop_spec nodeId cs0 l1 m1 ht
            have hmem2 : nodeId ∈ allIdsF cs0 := hm1 ▸ top_id_mem hmem
            have hsub : nodeId ∈ idsN (TreeNode.mk i0 nm0 hc0 (some cs0) ty0 ic0) :=
              sub_idsN_of_children (m := TreeNode.mk i0 nm0 hc0 (some cs0) ty0 ic0)
                rfl nodeId hmem2
            rw [he] at hnotin
            exact hnotin hsub
          · simp only [remMap, ht]
            exact List.mem_cons_of_mem _ hrest
      | none =>
        rcases List.mem_cons.mp hn with he | hrest
        · simp only [remMap]
          exact he ▸ List.mem_cons_self _ _
        · simp only [remMap]
          exact List.mem_cons_of_mem _ (ih n hrest hnotin)

/-! ### Claim C5 -/

/-- C5: structural sharing of the four copy-on-write mutations.  For
`updateNodeInChildren`, `updateNodeData` and `addNodeAtPath` (at any level —
the statements quantify over an arbitrary sibling list, which is exactly
what the recursion applies at every level), a sibling subtree whose span
does not contain the mutated id (for add: which is not the next path
segment) is returned unchanged at its position — this is the value-level
image of the source returning the very same object reference.  For
`findAndRemoveNode` the same holds up to the removed position, stated as
membership of the untouched sibling subtree in the result. -/
theorem c5_structural_sharing :
    (∀ (l : List TreeNode) (nodeId : String) (d : List TreeNode) (j : Nat) (n : TreeNode),
      l.get? j = some n → nodeId ∉ idsN n →
      ∃ l2, updateNodeInChildren (some l) nodeId d = some l2 ∧ l2.get? j = some n) ∧
    (∀ (l : List TreeNode) (nodeId : String) (u : NodeUpdates) (j : Nat) (n : TreeNode),
      l.get? j = some n → nodeId ∉ idsN n →
      ∃ l2, (updateNodeData (some l) nodeId u).1 = some l2 ∧ l2.get? j = some n) ∧
    (∀ (l : List TreeNode) (path : List String) (x : TreeNode) (j : Nat) (n : TreeNode),
      l.get? j = some n → path.head? ≠ some n.id →
      ∃ l2, addNodeAtPath (some l) path x = some l2 ∧ l2.get? j = some n) ∧
    (∀ (l : List TreeNode) (nodeId : String) (n : TreeNode),
      n ∈ l → nodeId ∉ idsN n →
      ∃ l2, (findAndRemoveNode (some l) nodeId).1 = some l2 ∧ n ∈ l2) := by
  refine ⟨?_, ?_, ?_, ?_⟩
  · intro l nodeId d j n hj hnot
    refine ⟨if (updList nodeId d l).2 then (updList nodeId d l).1 else l, ?_, ?_⟩
    · simp [updateNodeInChildren]
    · by_cases hr : (updList nodeId d l).2
      · simp only [if_pos hr]
        exact updList_frame nodeId d l j n hj hnot
      · simp only [if_neg hr]
        exact hj
  · intro l nodeId u j n hj hnot
    refine ⟨if (updDataList nodeId u l).2 then (updDataList nodeId u l).1 else l, ?_, ?_⟩
    · simp [updateNodeData]
    · by_cases hr : (updDataList nodeId u l).2
      · simp only [if_pos hr]
        exact updDataList_frame nodeId u l j n hj hnot
      · simp only [if_neg hr]
        exact hj
  · intro l path x j n hj hhead
    cases path with
    | nil =>
      refine ⟨l ++ [x], by simp [addNodeAtPath], ?_⟩
      have hlt : j < l.length := by
        rcases List.get?_eq_some.mp hj with ⟨hlt, _⟩
        exact hlt
      rw [List.get?_eq_getElem?, List.getElem?_append_left hlt, ← List.get?_eq_getElem?]
      exact hj
    | cons p rem =>
      have hne : n.id ≠ p := by
        intro he
        exact hhead (by simp [he])
      refine ⟨if (addRec x l (p :: rem)).2 then (addRec x l (p :: rem)).1 else l, ?_, ?_⟩
      · simp [addNodeAtPath]
      · by_cases hr : (addRec x l (p :: rem)).2
        · simp only [if_pos hr]
          exact addRec_frame x p rem l j n hj hne
        · simp only [if_neg hr]
          exact hj
  · intro l nodeId n hn hnot
    rw [findAndRemoveNode]
    rcases ht : remTop nodeId l with _ | pr
    · rcases hmm : (remMap nodeId l).2 with _ | m2
      · refine ⟨l, ?_, hn⟩
        simp [remList, ht, hmm]
      · refine ⟨(remMap nodeId l).1, ?_, remMap_mem_frame nodeId l n hn hnot⟩
        simp [remList, ht, hmm]
    · obtain ⟨l1, m1⟩ := pr
      obtain ⟨hm1, _, hall⟩ := remTop_spec nodeId l l1 m1 ht
      have hnm : n ≠ m1 := by
        intro he
        exact hnot (hm1 ▸ he ▸ id_mem_idsN n)
      have hn1 : n ∈ l1 := by
        rcases hall n hn with he | hh
        · exact absurd he hnm
        · exact hh
      have hne : ¬ l1.isEmpty := by
        rcases l1 with _ | _
        · cases hn1
        · simp
      refine ⟨l1, ?_, hn1⟩
      simp [remList, ht, hne]

/-- C5 witness: the four sharing statements applied to the concrete forest
`[A[A1, A2], U]` with the mutation targeting `"U"` (for add: path `["U"]`),
so that the sibling subtree `A` is untouched. -/
theorem c5_witness :
    (∃ l2, updateNodeInChildren (some [nodeA, nodeU]) "U" [] = some l2 ∧
      l2.get? 0 = some nodeA) ∧
    (∃ l2, (updateNodeData (some [nodeA, nodeU]) "U"
      ⟨some "r", none, none, none⟩).1 = some l2 ∧ l2.get? 0 = some nodeA) ∧
    (∃ l2, addNodeAtPath (some [nodeA, nodeU]) ["U"] leafC = some l2 ∧
      l2.get? 0 = some nodeA) ∧
    (∃ l2, (findAndRemoveNode (some [nodeA, nodeU]) "U").1 = some l2 ∧
      nodeA ∈ l2) := by
  have hnot : "U" ∉ idsN nodeA := by
    simp [idsN, allIdsF, nodeA, leafA1, leafA2]
  refine ⟨c5_structural_sharing.1 [nodeA, nodeU] "U" [] 0 nodeA (by simp) hnot,
    c5_structural_sharing.2.1 [nodeA, nodeU] "U" ⟨some "r", none, none, none⟩ 0 nodeA
      (by simp) hnot,
    c5_structural_sharing.2.2.1 [nodeA, nodeU] ["U"] leafC 0 nodeA (by simp)
      (by simp [nodeA]),
    c5_structural_sharing.2.2.2 [nodeA, nodeU] "U" nodeA (by simp) hnot⟩

/-! ### Claim C9 -/

/-- C9: `handleCompleteMove` performs no mutation — the resulting tree is
the unchanged input tree — whenever the target equals the moved node, lies
inside the moved node's subtree (descendant), or is a node whose children
are unloaded. -/
theorem c9_move_rejects (l : List TreeNode) (m : TreeNode) (sel : Option String)
    (t : String) (hnd : (allIdsF l).Nodup)
    (hcase :
      t = m.id ∨
      (occursF m l ∧ ∃ cs, m.children = some cs ∧ t ∈ allIdsF cs) ∨
      (∃ d, occursF d l ∧ d.id = t ∧ d.children = none)) :
    (handleCompleteMove ⟨some l, some m, sel⟩ (some t)).state.treeData = some l := by
  by_cases hself : t = m.id
  · simp [handleCompleteMove, hself]
  · rcases hcase with he | ⟨hm, cs, hch, ht⟩ | ⟨d, hd, hdid, hdch⟩
    · exact absurd he hself
    · have htl : t ∈ allIdsF l := occursF_ids_sub hm t (sub_idsN_of_children hch t ht)
      obtain ⟨r, hr⟩ := fnap_found_of_mem t l [] htl
      obtain ⟨n1, p1⟩ := r
      obtain ⟨hid1, ancs, hchain, hp⟩ := fnap_chain t l [] n1 p1 hr
      have hmid : m.id ∈ p1 := by
        rw [hp]
        simpa using chain_through_ancestor hnd hm hch ht hchain hid1
      simp [handleCompleteMove, hself, findNodeAndPath, hr, hmid]
    · obtain ⟨p1, hr⟩ := fnap_finds_occurrence hnd hd
      rw [hdid] at hr
      by_cases hmid : m.id ∈ p1
      · simp [handleCompleteMove, hself, findNodeAndPath, hr, hmid]
      · simp [handleCompleteMove, hself, findNodeAndPath, hr, hmid, hdch]

/-- C9 witness: a concrete self-move attempt leaves the tree untouched. -/
theorem c9_witness :
    (handleCompleteMove ⟨some [nodeA], some nodeA, none⟩ (some "A")).state.treeData =
      some [nodeA] := by
  have h := c9_move_rejects [nodeA] nodeA none "A"
    (by simp [allIdsF, nodeA, leafA1, leafA2]) (Or.inl (by simp [nodeA]))
  simpa using h

/-! ### Claim C3 -/

/-- C3, counterexample: a failed self-move validation clears the move state
(`setNodeToMove(null)`) even though an error is surfaced — the state does
not remain `Moving(m)` as the claim asserts. -/
theorem c3_counterexample :
    (handleCompleteMove ⟨some [nodeA], some nodeA, none⟩
      (some "A")).state.nodeToMove = none ∧
    (handleCompleteMove ⟨some [nodeA], some nodeA, none⟩
      (some "A")).errorMsg.isSome = true := by
  constructor <;> simp [handleCompleteMove, nodeA]

/-- C3, amended: every failed move validation surfaces an error and leaves
the tree untouched (no silent cancel), but only the unloaded-target case
keeps the state `Moving(m)`; self-move and descendant-move cancel the move
(the move state becomes empty). -/
theorem c3_amended (tr : Option (List TreeNode)) (m : TreeNode) (sel : Option String) :
    ((handleCompleteMove ⟨tr, some m, sel⟩ (some m.id)).state.nodeToMove = none ∧
     (handleCompleteMove ⟨tr, some m, sel⟩ (some m.id)).errorMsg.isSome = true ∧
     (handleCompleteMove ⟨tr, some m, sel⟩ (some m.id)).state.treeData = tr) ∧
    (∀ (l : List TreeNode) (t : String), tr = some l → (allIdsF l).Nodup →
      occursF m l → (∃ cs, m.children = some cs ∧ t ∈ allIdsF cs) →
      (handleCompleteMove ⟨tr, some m, sel⟩ (some t)).state.nodeToMove = none ∧
      (handleCompleteMove ⟨tr, some m, sel⟩ (some t)).errorMsg.isSome = true ∧
      (handleCompleteMove ⟨tr, some m, sel⟩ (some t)).state.treeData = tr) ∧
    (∀ (l : List TreeNode) (t : String) (d : TreeNode), tr = some l →
      (allIdsF l).Nodup → occursF m l → occursF d l → d.id = t →
      d.children = none → t ≠ m.id → (∀ cs, m.children = some cs → t ∉ allIdsF cs) →
      (handleCompleteMove ⟨tr, some m, sel⟩ (some t)).state.nodeToMove = some m ∧
      (handleCompleteMove ⟨tr, some m, sel⟩ (some t)).errorMsg.isSome = true ∧
      (handleCompleteMove ⟨tr, some m, sel⟩ (some t)).state.treeData = tr) := by
  refine ⟨by simp [handleCompleteMove], ?_, ?_⟩
  · intro l t htr hnd hm ⟨cs, hch, ht⟩
    subst htr
    have hself : ¬ t = m.id := by
      intro he
      have := (nodup_children_of_occurs hnd hm hch).2
      exact this (he ▸ ht)
    have htl : t ∈ allIdsF l := occursF_ids_sub hm t (sub_idsN_of_children hch t ht)
    obtain ⟨r, hr⟩ := fnap_found_of_mem t l [] htl
    obtain ⟨n1, p1⟩ := r
    obtain ⟨hid1, ancs, hchain, hp⟩ := fnap_chain t l [] n1 p1 hr
    have hmid : m.id ∈ p1 := by
      rw [hp]
      simpa using chain_through_ancestor hnd hm hch ht hchain hid1
    refine ⟨?_, ?_, ?_⟩ <;> simp [handleCompleteMove, hself, findNodeAndPath, hr, hmid]
  · intro l t d htr hnd hm hd hdid hdch hself hnotsub
    subst htr
    obtain ⟨p1, hr⟩ := fnap_finds_occurrence hnd hd
    rw [hdid] at hr
    have hmid : m.id ∉ p1 := by
      intro hmem
      obtain ⟨hid1, ancs, hchain, hp⟩ := fnap_chain t l [] d p1 hr
      rw [hp] at hmem
      simp only [List.nil_append] at hmem
      obtain ⟨a, hamem, haid⟩ := List.mem_map.mp hmem
      have haocc : occursF a l := chain_anc_occursF hchain a hamem
      have haeq : a = m := occurs_unique hnd haocc hm haid
      obtain ⟨cs2, hcs2, hoccd⟩ := chain_below hchain hamem
      rw [haeq] at hcs2
      have : t ∈ allIdsF cs2 := hdid ▸ occursF_id_mem hoccd
      exact hnotsub cs2 hcs2 this
    refine ⟨?_, ?_, ?_⟩ <;>
      simp [handleCompleteMove, hself, findNodeAndPath, hr, hmid, hdch]

/-- C3 witness: a concrete move onto an unloaded target keeps the move
state, and a concrete self-move cancels it, both with an error surfaced. -/
theorem c3_witness :
    (handleCompleteMove ⟨some [nodeA, nodeU], some nodeA, none⟩
      (some "U")).state.nodeToMove = some nodeA ∧
    (handleCompleteMove ⟨some [nodeA, nodeU], some nodeA, none⟩
      (some "U")).errorMsg.isSome = true := by
  have h := (c3_amended (some [nodeA, nodeU]) nodeA none).2.2 [nodeA, nodeU] "U" nodeU
    rfl (by simp [allIdsF, nodeA, nodeU, leafA1, leafA2])
    (by simp [occursF, nodeA, nodeU]) (by simp [occursF, nodeA, nodeU])
    (by simp [nodeU]) (by simp [nodeU]) (by simp [nodeA])
    (by intro cs hcs
        simp only [nodeA, TreeNode.children_mk] at hcs
        injection hcs with hcs
        subst hcs
        simp [allIdsF, leafA1, leafA2])
  exact ⟨h.1, h.2.1⟩

/-! ### Ancestor-walk lemmas for the checkbox cascade -/

theorem applyAncestors_nil (l : List TreeNode) (s : Finset String) :
    applyAncestors l [] s = s := by
  rw [applyAncestors]

theorem applyAncestors_append (l : List TreeNode) :
    ∀ (xs ys : List String) (s : Finset String),
      applyAncestors l (xs ++ ys) s = applyAncestors l ys (applyAncestors l xs s) := by
  intro xs
  induction xs with
  | nil => intro ys s; rw [applyAncestors_nil]; rfl
  | cons aid rest ih =>
    intro ys s
    rw [List.cons_append, applyAncestors, applyAncestors]
    exact ih ys _

theorem mem_applyAncestors_of_notin (l : List TreeNode) :
    ∀ (ids : List String) (s : Finset String) (x : String), x ∉ ids →
      (x ∈ applyAncestors l ids s ↔ x ∈ s) := by
  intro ids
  induction ids with
  | nil => intro s x _; rw [applyAncestors_nil]
  | cons aid rest ih =>
    intro s x hx
    simp only [List.mem_cons] at hx
    push_neg at hx
    rw [applyAncestors]
    rw [ih _ x hx.2]
    rcases hg : nodeMapGet l aid with _ | a
    · simp
    · rcases hch : a.children with _ | cs
      · simp [hch]
      · by_cases hemp : cs.isEmpty
        · simp [hch, hemp]
        · by_cases hall : cs.all (fun c => decide (c.id ∈ s))
          · simp [hch, hemp, hall, Finset.mem_insert, hx.1]
          · simp [hch, hemp, hall, Finset.mem_erase, hx.1]

/-- Core restoration property of the upward cascade pass: if the current
set already agrees with the original set `S` outside the toggled subtree
and the ancestor path, agrees with `S` on the subtree (up to the toggled
node's own membership), and `S` satisfies the all-loaded-children rule on
the ancestor chain, then recomputing the chain bottom-up restores every
ancestor's membership to its value in `S` and touches nothing else. -/
theorem walk_restores (l : List TreeNode) (hnd : (allIdsF l).Nodup)
    (S : Finset String) (n : TreeNode)
    (hsub : ∀ x ∈ idsN n, (x ∈ S ↔ n.id ∈ S)) :
    ∀ {F ancs : List TreeNode}, Chain F ancs n →
    ∀ (outerIds : List String) (s : Finset String),
      (allIdsF F).Nodup →
      (∀ a ∈ ancs, occursF a l) →
      (∀ a ∈ ancs, ∀ cs, a.children = some cs → (a.id ∈ S ↔ ∀ c ∈ cs, c.id ∈ S)) →
      (∀ x ∈ outerIds, x ∉ allIdsF F) →
      (∀ x ∈ idsN n, (x ∈ s ↔ n.id ∈ S)) →
      (∀ x, x ∉ idsN n → x ∉ outerIds → x ∉ ancs.map TreeNode.id → (x ∈ s ↔ x ∈ S)) →
      (∀ x ∈ ancs.map TreeNode.id,
        (x ∈ applyAncestors l (ancs.map TreeNode.id).reverse s ↔ x ∈ S)) ∧
      (∀ x, x ∉ ancs.map TreeNode.id →
        (x ∈ applyAncestors l (ancs.map TreeNode.id).reverse s ↔ x ∈ s)) := by
  intro F ancs hchain
  induction hchain with
  | here hmem =>
    intro outerIds s _ _ _ _ _ _
    constructor
    · intro x hx
      simp at hx
    · intro x _
      simp [applyAncestors_nil]
  | via hmem hch hcc ih =>
    rename_i F a cs ancs2 n2
    intro outerIds s hndF hoccl hrule houter hsD hsOut
    have hoccal : occursF a l := hoccl a (List.mem_cons_self _ _)
    have hmap : nodeMapGet l a.id = some a := nodeMapGet_of_occurs hnd hoccal
    obtain ⟨hndcs, hanotin⟩ := nodup_children_of_occurs hndF (occursF_of_mem hmem) hch
    have hcs_sub_F : ∀ x ∈ allIdsF cs, x ∈ allIdsF F := fun x hx =>
      idsN_sub_of_mem hmem x (sub_idsN_of_children hch x hx)
    have hinner_sub : ∀ x ∈ ancs2.map TreeNode.id, x ∈ allIdsF cs := by
      intro x hx
      obtain ⟨b, hb, hbid⟩ := List.mem_map.mp hx
      exact hbid ▸ occursF_id_mem (chain_anc_occursF hcc b hb)
    have hcs_ne : ¬ cs.isEmpty := by
      cases hcc with
      | here h2 => simp [List.isEmpty_iff, List.ne_nil_of_mem h2]
      | via h2 _ _ => simp [List.isEmpty_iff, List.ne_nil_of_mem h2]
    have ihres := ih hsub (outerIds ++ [a.id]) s hndcs
      (fun b hb => hoccl b (List.mem_cons_of_mem _ hb))
      (fun b hb => hrule b (List.mem_cons_of_mem _ hb))
      (by
        intro x hx
        rcases List.mem_append.mp hx with h1 | h2
        · exact fun hmem2 => houter x h1 (hcs_sub_F x hmem2)
        · simp at h2
          subst h2
          exact hanotin)
      hsD
      (by
        intro x hxn hxo hxa
        refine hsOut x hxn (fun hh => hxo (List.mem_append_left _ hh)) ?_
        simp only [List.map_cons, List.mem_cons]
        push_neg
        refine ⟨?_, hxa⟩
        intro he
        exact hxo (List.mem_append_right _ (by simp [he])))
    obtain ⟨ihL, ihR⟩ := ihres
    have hcmem : ∀ c ∈ cs,
        (c.id ∈ applyAncestors l (ancs2.map TreeNode.id).reverse s ↔ c.id ∈ S) := by
      intro c hc
      by_cases hci : c.id ∈ ancs2.map TreeNode.id
      · exact ihL c.id hci
      · rw [ihR c.id hci]
        by_cases hcn : c.id ∈ idsN n2
        · rw [hsD c.id hcn, hsub c.id hcn]
        · refine hsOut c.id hcn ?_ ?_
          · intro hh
            exact houter c.id hh (hcs_sub_F c.id (top_id_mem hc))
          · simp only [List.map_cons, List.mem_cons]
            push_neg
            exact ⟨fun he => hanotin (he ▸ top_id_mem hc), hci⟩
    have hrev : ((a :: ancs2).map TreeNode.id).reverse
        = (ancs2.map TreeNode.id).reverse ++ [a.id] := by simp
    rw [hrev, applyAncestors_append]
    have hstep : applyAncestors l [a.id]
        (applyAncestors l (ancs2.map TreeNode.id).reverse s) =
        (if cs.all (fun c =>
            decide (c.id ∈ applyAncestors l (ancs2.map TreeNode.id).reverse s)) then
          insert a.id (applyAncestors l (ancs2.map TreeNode.id).reverse s)
        else (applyAncestors l (ancs2.map TreeNode.id).reverse s).erase a.id) := by
      rw [applyAncestors, applyAncestors_nil]
      simp only [hmap, hch]
      simp [hcs_ne]
    rw [hstep]
    have hall : (cs.all (fun c =>
        decide (c.id ∈ applyAncestors l (ancs2.map TreeNode.id).reverse s)) = true)
        ↔ a.id ∈ S := by
      rw [List.all_eq_true]
      constructor
      · intro hh
        refine (hrule a (List.mem_cons_self _ _) cs hch).mpr ?_
        intro c hc
        exact (hcmem c hc).mp (by simpa using hh c hc)
      · intro hh c hc
        simp only [decide_eq_true_eq]
        exact (hcmem c hc).mpr ((hrule a (List.mem_cons_self _ _) cs hch).mp hh c hc)
    have hainotin2 : a.id ∉ ancs2.map TreeNode.id :=
      fun hh => hanotin (hinner_sub a.id hh)
    constructor
    · intro x hx
      simp only [List.map_cons, List.mem_cons] at hx
      rcases hx with he | hxin
      · subst he
        by_cases haS : a.id ∈ S
        · rw [if_pos (hall.mpr haS)]
          simp [Finset.mem_insert, haS]
        · rw [if_neg (fun hh => haS (hall.mp hh))]
          simp [Finset.mem_erase, haS]
      · have hxa : x ≠ a.id := by
          intro he
          exact hainotin2 (he ▸ hxin)
        by_cases hcond : cs.all (fun c =>
            decide (c.id ∈ applyAncestors l (ancs2.map TreeNode.id).reverse s))
        · rw [if_pos hcond]
          rw [Finset.mem_insert]
          simp [hxa]
          exact ihL x hxin
        · rw [if_neg hcond]
          rw [Finset.mem_erase]
          simp [hxa]
          exact ihL x hxin
    · intro x hx
      simp only [List.map_cons, List.mem_cons] at hx
      push_neg at hx
      by_cases hcond : cs.all (fun c =>
          decide (c.id ∈ applyAncestors l (ancs2.map TreeNode.id).reverse s))
      · rw [if_pos hcond]
        rw [Finset.mem_insert]
        simp [hx.1]
        exact ihR x hx.2
      · rw [if_neg hcond]
        rw [Finset.mem_erase]
        simp [hx.1]
        exact ihR x hx.2

theorem allNodesF_isEmpty_false (n0 : TreeNode) (rest : List TreeNode) :
    (allNodesF (n0 :: rest)).isEmpty = false := by
  cases n0 with
  | mk i nm hc ch ty ic =>
    cases ch with
    | some cs => simp [allNodesF]
    | none => simp [allNodesF]

theorem handleCheckboxChange_unfold (l : List TreeNode) (S : Finset String)
    (clickedNodeId : String) (n : TreeNode) (p : List String)
    (hne : (allNodesF l).isEmpty = false)
    (hmap : nodeMapGet l clickedNodeId = some n)
    (hfind : fnapList clickedNodeId l [] = some (n, p)) :
    handleCheckboxChange (some l) S clickedNodeId =
      applyAncestors l p.reverse
        (if clickedNodeId ∈ S then foldErase S (idsN n) else foldInsert S (idsN n)) := by
  rw [handleCheckboxChange]
  simp [hne, hmap, hfind]

/-! ### Claim C6 -/

/-- C6, counterexample: with `checked = {"A1"}` (one child of `A` checked,
`A` itself not), toggling `A` twice ends with the empty set, not the prior
value: the first toggle checks the whole subtree, the second unchecks it —
`"A1"`'s original membership is lost. -/
theorem c6_counterexample :
    handleCheckboxChange (some [nodeA])
      (handleCheckboxChange (some [nodeA]) {"A1"} "A") "A" ≠ ({"A1"} : Finset String) := by
  have hmap : nodeMapGet [nodeA] "A" = some nodeA := by
    simp [nodeMapGet, allNodesF, nodeA, leafA1, leafA2, List.find?]
  have hfind : fnapList "A" [nodeA] [] = some (nodeA, []) := by
    simp [fnapList, nodeA]
  have hids : idsN nodeA = ["A", "A1", "A2"] := by
    simp [idsN, allIdsF, nodeA, leafA1, leafA2]
  have h1 : handleCheckboxChange (some [nodeA]) {"A1"} "A" =
      foldInsert {"A1"} ["A", "A1", "A2"] := by
    rw [handleCheckboxChange_unfold [nodeA] {"A1"} "A" nodeA []
      (allNodesF_isEmpty_false _ _) hmap hfind]
    rw [List.reverse_nil, applyAncestors_nil, if_neg (by simp), hids]
  have hA : "A" ∈ foldInsert {"A1"} ["A", "A1", "A2"] := by
    rw [mem_foldInsert]
    simp
  have h2 : handleCheckboxChange (some [nodeA])
      (handleCheckboxChange (some [nodeA]) {"A1"} "A") "A" =
      foldErase (foldInsert {"A1"} ["A", "A1", "A2"]) ["A", "A1", "A2"] := by
    rw [h1]
    rw [handleCheckboxChange_unfold [nodeA] _ "A" nodeA []
      (allNodesF_isEmpty_false _ _) hmap hfind]
    rw [List.reverse_nil, applyAncestors_nil, if_pos hA, hids]
  intro h
  have hm : ("A1" : String) ∈
      foldErase (foldInsert {"A1"} ["A", "A1", "A2"]) ["A", "A1", "A2"] := by
    rw [← h2, h]
    simp
  rw [mem_foldErase] at hm
  simp at hm

/-- C6, amended: toggling the same node twice restores the checked set
provided the prior checked set is cascade-consistent around the node:
every id of the node's loaded subtree has the same membership as the node
itself, and every ancestor on the node's path satisfies the
all-loaded-children rule; ids are unique.  Without these conditions the
double toggle normalises the set instead of restoring it. -/
theorem c6_double_toggle (l : List TreeNode) (S : Finset String)
    (clickedNodeId : String) (hnd : (allIdsF l).Nodup)
    (n : TreeNode) (p : List String)
    (hfind : fnapList clickedNodeId l [] = some (n, p))
    (hsub : ∀ d ∈ idsN n, (d ∈ S ↔ clickedNodeId ∈ S))
    (hanc : ∀ a ∈ p, ∀ aN cs, nodeMapGet l a = some aN → aN.children = some cs →
      (a ∈ S ↔ ∀ c ∈ cs, c.id ∈ S)) :
    handleCheckboxChange (some l)
      (handleCheckboxChange (some l) S clickedNodeId) clickedNodeId = S := by
  obtain ⟨hid, ancs, hchain, hp⟩ := fnap_chain clickedNodeId l [] n p hfind
  simp only [List.nil_append] at hp
  have hnocc : occursF n l := chain_occursF hchain
  have hmapn : nodeMapGet l clickedNodeId = some n := hid ▸ nodeMapGet_of_occurs hnd hnocc
  have hlne : (allNodesF l).isEmpty = false := by
    cases l with
    | nil => rw [fnapList] at hfind; cases hfind
    | cons n0 rest => exact allNodesF_isEmpty_false n0 rest
  have hidD : clickedNodeId ∈ idsN n := hid ▸ id_mem_idsN n
  have hDP : ∀ a ∈ ancs, a.id ∉ idsN n := by
    intro a ha
    obtain ⟨cs2, hcs2, hocc2⟩ := chain_below hchain ha
    have h1 : a.id ∉ allIdsF cs2 :=
      (nodup_children_of_occurs hnd (chain_anc_occursF hchain a ha) hcs2).2
    intro hmem
    exact h1 (occursF_ids_sub hocc2 a.id hmem)
  have hDp : ∀ x ∈ idsN n, x ∉ p := by
    intro x hx
    rw [hp]
    intro hmem
    obtain ⟨a, ha, haid⟩ := List.mem_map.mp hmem
    refine hDP a ha ?_
    rw [haid]
    exact hx
  have hrule : ∀ a ∈ ancs, ∀ cs, a.children = some cs →
      (a.id ∈ S ↔ ∀ c ∈ cs, c.id ∈ S) := by
    intro a ha cs hcs
    have hmapa : nodeMapGet l a.id = some a :=
      nodeMapGet_of_occurs hnd (chain_anc_occursF hchain a ha)
    exact hanc a.id (by rw [hp]; exact List.mem_map_of_mem _ ha) a cs hmapa hcs
  rw [handleCheckboxChange_unfold l S clickedNodeId n p hlne hmapn hfind]
  set s1 := (if clickedNodeId ∈ S then foldErase S (idsN n)
             else foldInsert S (idsN n)) with hs1
  have hs1D : ∀ x ∈ idsN n, (x ∈ s1 ↔ clickedNodeId ∉ S) := by
    intro x hx
    rw [hs1]
    by_cases hcS : clickedNodeId ∈ S
    · simp [hcS, mem_foldErase, hx]
    · simp [hcS, mem_foldInsert, hx]
  have hs1Out : ∀ x, x ∉ idsN n → (x ∈ s1 ↔ x ∈ S) := by
    intro x hx
    rw [hs1]
    by_cases hcS : clickedNodeId ∈ S
    · simp [hcS, mem_foldErase, hx]
    · simp [hcS, mem_foldInsert, hx]
  set S1 := applyAncestors l p.reverse s1 with hS1def
  have hS1D : ∀ x ∈ idsN n, (x ∈ S1 ↔ clickedNodeId ∉ S) := by
    intro x hx
    rw [hS1def, mem_applyAncestors_of_notin l _ _ x
      (fun hh => hDp x hx (List.mem_reverse.mp hh))]
    exact hs1D x hx
  have hS1Out : ∀ x, x ∉ idsN n → x ∉ p → (x ∈ S1 ↔ x ∈ S) := by
    intro x hxn hxp
    rw [hS1def, mem_applyAncestors_of_notin l _ _ x
      (fun hh => hxp (List.mem_reverse.mp hh))]
    exact hs1Out x hxn
  have hS1id : clickedNodeId ∈ S1 ↔ clickedNodeId ∉ S := hS1D clickedNodeId hidD
  rw [handleCheckboxChange_unfold l S1 clickedNodeId n p hlne hmapn hfind]
  set s2 := (if clickedNodeId ∈ S1 then foldErase S1 (idsN n)
             else foldInsert S1 (idsN n)) with hs2
  have hs2D : ∀ x ∈ idsN n, (x ∈ s2 ↔ clickedNodeId ∈ S) := by
    intro x hx
    rw [hs2]
    by_cases hcS : clickedNodeId ∈ S
    · have hnS1 : clickedNodeId ∉ S1 := fun hh => (hS1id.mp hh) hcS
      simp [hnS1, mem_foldInsert, hx, hcS]
    · have hS1m : clickedNodeId ∈ S1 := hS1id.mpr hcS
      simp [hS1m, mem_foldErase, hx, hcS]
  have hs2Out : ∀ x, x ∉ idsN n → (x ∈ s2 ↔ x ∈ S1) := by
    intro x hx
    rw [hs2]
    by_cases hcS1 : clickedNodeId ∈ S1
    · simp [hcS1, mem_foldErase, hx]
    · simp [hcS1, mem_foldInsert, hx]
  have hsubn : ∀ x ∈ idsN n, (x ∈ S ↔ n.id ∈ S) := by
    intro x hx
    rw [hsub x hx, hid]
  have hw := walk_restores l hnd S n hsubn hchain [] s2 hnd
    (chain_anc_occursF hchain) hrule (by simp)
    (by
      intro x hx
      rw [hid]
      exact hs2D x hx)
    (by
      intro x hxn _ hxa
      have hxp : x ∉ p := by rw [hp]; exact hxa
      rw [hs2Out x hxn]
      exact hS1Out x hxn hxp)
  obtain ⟨hwL, hwR⟩ := hw
  rw [hp]
  apply Finset.ext
  intro x
  by_cases hxp : x ∈ ancs.map TreeNode.id
  · exact hwL x hxp
  · rw [hwR x hxp]
    by_cases hxn : x ∈ idsN n
    · rw [hs2D x hxn, ← hsub x hxn]
    · rw [hs2Out x hxn]
      exact hS1Out x hxn (by rw [hp]; exact hxp)

/-- C6 witness: the amended statement applied to the concrete tree
`[P[A[A1, A2]]]`, toggled node `A`, and the cascade-consistent prior set
`∅`. -/
theorem c6_witness :
    handleCheckboxChange (some [TreeNode.mk "P" "p" true (some [nodeA]) none none])
      (handleCheckboxChange (some [TreeNode.mk "P" "p" true (some [nodeA]) none none])
        ∅ "A") "A" = (∅ : Finset String) := by
  have hanc : ∀ a ∈ (["P"] : List String), ∀ (aN : TreeNode) (cs : List TreeNode),
      nodeMapGet [TreeNode.mk "P" "p" true (some [nodeA]) none none] a = some aN →
      aN.children = some cs →
      ((a ∈ (∅ : Finset String)) ↔ ∀ c ∈ cs, c.id ∈ (∅ : Finset String)) := by
    intro a ha aN cs hm hch
    simp only [List.mem_singleton] at ha
    subst ha
    simp [nodeMapGet, allNodesF, nodeA, leafA1, leafA2, List.find?] at hm
    subst hm
    simp only [TreeNode.children_mk, Option.some.injEq] at hch
    subst hch
    simp [nodeA]
  exact c6_double_toggle [TreeNode.mk "P" "p" true (some [nodeA]) none none] ∅ "A"
    (by simp [allIdsF, nodeA, leafA1, leafA2]) nodeA ["P"]
    (by simp [fnapList, nodeA, leafA1, leafA2]) (by simp) hanc
